import Mathlib

/-!
Shallow embedding of the `egui_dock` layout-tree engine
(`src/dock_state/tree/mod.rs` and `src/dock_state/surface.rs`).

The tree is a flat `List` of nodes indexed like an implicit binary tree:
root at 0, children of `n` at `2n+1` / `2n+2`.  Rust `Vec` indexing that can
panic is modelled with `Option`: a `none` result of a tree operation stands
for a panic (assertion failure or out-of-bounds index).

The repository ships only `tree/mod.rs` and `surface.rs`; the helper modules
`node.rs`, `node_index.rs`, `tab_index.rs`, `tab_iter.rs` are declared but
their sources are absent, so `Node`-level operations and the node-index
arithmetic are modelled from the specification (spec sections 4.1 and 4.2)
and from how `tree/mod.rs` uses them.

Floating-point split fractions (`f32`) are modelled as rationals: the code
never computes with the fraction, it only stores it and range-checks it, and
for the range check rationals behave like the floats the claims mention.
The advisory per-leaf viewport rectangle and scroll offset are presentation
metadata that no modelled operation reads or writes, so they are omitted
from the leaf payload.
-/

namespace EguiDock

/-- Direction in which a new node is created relative to the parent node at
which a split occurs (`Split` enum in `tree/mod.rs`). -/
inductive SplitDir where
  | Left
  | Right
  | Above
  | Below
deriving DecidableEq, Repr

/-- Returns whether the split is vertical (`Split::is_top_bottom`). -/
def SplitDir.is_top_bottom : SplitDir → Bool
  | .Above | .Below => true
  | _ => false

/-- Returns whether the split is horizontal (`Split::is_left_right`). -/
def SplitDir.is_left_right : SplitDir → Bool
  | .Left | .Right => true
  | _ => false

/-- Modelled from the spec: one slot of the tree (`Node` in the missing
`node.rs`).  `leaf` carries the ordered tabs, the active-tab index and the
collapsed flag; `horizontal`/`vertical` carry the split fraction, the
collapsed flag and the collapsed-leaf-count annotation (spec section 3).
Viewport rectangles are presentation metadata and are not modelled. -/
inductive Node (Tab : Type) where
  | empty : Node Tab
  | leaf (tabs : List Tab) (active : Nat) (collapsed : Bool) : Node Tab
  | horizontal (fraction : Rat) (collapsed : Bool) (collapsed_leaf_count : Int) : Node Tab
  | vertical (fraction : Rat) (collapsed : Bool) (collapsed_leaf_count : Int) : Node Tab
deriving DecidableEq, Repr

namespace Node

variable {Tab NewTab : Type}

/-- Modelled from the spec: `Node::is_empty`. -/
def is_empty : Node Tab → Bool
  | .empty => true
  | _ => false

/-- Modelled from the spec: `Node::is_leaf`. -/
def is_leaf : Node Tab → Bool
  | .leaf .. => true
  | _ => false

/-- Modelled from the spec: `Node::is_parent` (a Horizontal or Vertical
split node). -/
def is_parent : Node Tab → Bool
  | .horizontal .. => true
  | .vertical .. => true
  | _ => false

/-- Modelled from the spec: `Node::is_horizontal`. -/
def is_horizontal : Node Tab → Bool
  | .horizontal .. => true
  | _ => false

/-- Modelled from the spec: `Node::is_vertical`. -/
def is_vertical : Node Tab → Bool
  | .vertical .. => true
  | _ => false

/-- Modelled from the spec: `Node::tabs_count` — number of tabs held
directly by the node (0 for non-leaves). -/
def tabs_count : Node Tab → Nat
  | .leaf tabs _ _ => tabs.length
  | _ => 0

/-- The tabs held directly by the node (empty for non-leaves); read-only view
used by `Tree::num_tabs` and the tab iterator. -/
def tabsOf : Node Tab → List Tab
  | .leaf tabs _ _ => tabs
  | _ => []

/-- Modelled from the spec: `Node::leaf` — a fresh leaf holding one tab,
active tab 0, not collapsed. -/
def leaf1 (tab : Tab) : Node Tab := .leaf [tab] 0 false

/-- Modelled from the spec: `Node::leaf_with` — a fresh leaf holding `tabs`,
active tab 0, not collapsed. -/
def leaf_with (tabs : List Tab) : Node Tab := .leaf tabs 0 false

/-- Modelled from the spec: `Node::is_collapsed`; an Empty node is never
collapsed. -/
def is_collapsed : Node Tab → Bool
  | .leaf _ _ c => c
  | .horizontal _ c _ => c
  | .vertical _ c _ => c
  | .empty => false

/-- Modelled from the spec: `Node::collapsed_leaf_count` — 0 for Empty, the
stored annotation for splits, and 1 or 0 for a leaf according to its
collapsed flag (the bottom-up aggregation of spec section 3 I3 is over
collapsed leaves). -/
def collapsed_leaf_count : Node Tab → Int
  | .empty => 0
  | .leaf _ _ c => if c then 1 else 0
  | .horizontal _ _ n => n
  | .vertical _ _ n => n

/-- Modelled from the spec: `Node::set_collapsed` — sets the collapsed flag;
no effect on Empty. -/
def set_collapsed (b : Bool) : Node Tab → Node Tab
  | .leaf tabs a _ => .leaf tabs a b
  | .horizontal f _ n => .horizontal f b n
  | .vertical f _ n => .vertical f b n
  | .empty => .empty

/-- Modelled from the spec: `Node::set_collapsed_leaf_count` — stores the
annotation on a split node; leaves derive it from their flag and Empty is
fixed at 0, so those are unchanged. -/
def set_collapsed_leaf_count (n : Int) : Node Tab → Node Tab
  | .horizontal f c _ => .horizontal f c n
  | .vertical f c _ => .vertical f c n
  | other => other

/-- Modelled from the spec: `LeafNode::append_tab` as used by
`push_to_focused_leaf` — the tab is appended and becomes the active tab. -/
def append_tab (tab : Tab) : Node Tab → Node Tab
  | .leaf tabs _ c => .leaf (tabs ++ [tab]) tabs.length c
  | other => other

/-- Modelled from the spec: `Node::remove_tab` — removes the tab at the
index from a leaf and returns it, shifting the active index to a neighboring
valid position; a missing index or a non-leaf is a soft miss (`none`, node
unchanged), per spec section 7. -/
def remove_tab (i : Nat) : Node Tab → Node Tab × Option Tab
  | .leaf tabs a c =>
    match tabs[i]? with
    | some tab =>
      let tabs' := tabs.eraseIdx i
      let a' := if i < a then a - 1 else min a (tabs'.length - 1)
      (.leaf tabs' a' c, some tab)
    | none => (.leaf tabs a c, none)
  | other => (other, none)

/-- Modelled from the spec: `Node::filter_map_tabs` — maps/filters a leaf's
tabs, dropping the node to Empty when no tab survives; splits keep their
annotations, Empty stays Empty. -/
def filter_map_tabs (f : Tab → Option NewTab) : Node Tab → Node NewTab
  | .leaf tabs a c =>
    let tabs' := tabs.filterMap f
    if tabs'.isEmpty then .empty else .leaf tabs' a c
  | .horizontal fr c n => .horizontal fr c n
  | .vertical fr c n => .vertical fr c n
  | .empty => .empty

/-- Modelled from the spec: `Node::retain_tabs` — keeps the tabs satisfying
the predicate, dropping the node to Empty when none survives.  The Rust
predicate is `FnMut(&mut Tab) -> bool`; the claims only use pure
non-mutating predicates, which is what is modelled. -/
def retain_tabs (p : Tab → Bool) : Node Tab → Node Tab
  | .leaf tabs a c =>
    let tabs' := tabs.filter p
    if tabs'.isEmpty then .empty else .leaf tabs' a c
  | other => other

end Node

namespace NodeIndex

/-- Modelled from the spec: left child of node `n` is at `2n+1`. -/
def left (n : Nat) : Nat := 2 * n + 1

/-- Modelled from the spec: right child of node `n` is at `2n+2`. -/
def right (n : Nat) : Nat := 2 * n + 2

/-- Structural halving: `half n = n / 2` (see `half_eq_div_two`); written
with structural recursion so that it evaluates definitionally. -/
def half : Nat → Nat
  | 0 => 0
  | 1 => 0
  | n + 2 => half n + 1

/-- Structural parity: `isOdd n = (n % 2 = 1)` (see `isOdd_eq_mod_two`). -/
def isOdd : Nat → Bool
  | 0 => false
  | 1 => true
  | n + 2 => isOdd n

/-- Modelled from the spec: parent of `n` is `(n-1)/2` (integer division),
none for the root. -/
def parent (n : Nat) : Option Nat :=
  match n with
  | 0 => none
  | m + 1 => some (half m)

/-- Structurally recursive floor-log2: `log2fl fuel m = floor(log2 m)` for
`m ≥ 1` whenever `fuel ≥ m` (halving needs at most `m` steps). -/
def log2fl : Nat → Nat → Nat
  | 0, _ => 0
  | fuel + 1, m => if m ≤ 1 then 0 else log2fl fuel (half m) + 1

/-- Modelled from the spec: `level(n) = floor(log2(n+1))` — the depth of the
node (root at level 0).  The Rust code computes the bit length of `n+1`,
which is this value plus one; call sites below compensate so the observable
arithmetic matches the code. -/
def level (n : Nat) : Nat := log2fl (n + 1) (n + 1)

/-- Modelled from the spec: `is_left(n)` — true iff `n` is odd. -/
def is_left (n : Nat) : Bool := isOdd n

/-- Modelled from the spec: start of `children_at(n, lvl)` — the contiguous
index range of the descendants of `n` exactly `lvl` levels below it:
`[(n+1)*2^lvl - 1, (n+2)*2^lvl - 1)`. -/
def chStart (n lvl : Nat) : Nat := (n + 1) * 2 ^ lvl - 1

/-- Modelled from the spec: start of `children_left(n, lvl)` — the first
half of the `children_at(n, lvl)` range. -/
def chLeftStart (n lvl : Nat) : Nat := chStart n lvl

/-- Modelled from the spec: start of `children_right(n, lvl)` — the second
half of the `children_at(n, lvl)` range. -/
def chRightStart (n lvl : Nat) : Nat := chStart n lvl + half (2 ^ lvl)

end NodeIndex

open NodeIndex

/-- Binary tree of `Node`s stored in a flat vector (`Tree` in
`tree/mod.rs`): the node list, the optional focused node, and the tree-level
collapsed flag and collapsed-leaf-count. -/
structure Tree (Tab : Type) where
  nodes : List (Node Tab)
  focused_node : Option Nat
  collapsed : Bool
  collapsed_leaf_count : Int
deriving DecidableEq, Repr

variable {Tab NewTab : Type}

/-- `Tree::new` — a tree whose root is a single leaf holding `tabs`. -/
def Tree.new (tabs : List Tab) : Tree Tab :=
  { nodes := [Node.leaf_with tabs], focused_node := none,
    collapsed := false, collapsed_leaf_count := 0 }

/-- `Tree::default` — the empty tree. -/
def Tree.empty : Tree Tab :=
  { nodes := [], focused_node := none, collapsed := false, collapsed_leaf_count := 0 }

/-- `Tree::num_tabs` — fold over the node vector adding each leaf's tab
count. -/
def Tree.num_tabs (t : Tree Tab) : Nat :=
  t.nodes.foldl (fun acc n => acc + n.tabs_count) 0

/-- All tabs of the tree in flat-sequence order (the `tabs()` iterator). -/
def Tree.tabsList (t : Tree Tab) : List Tab :=
  (t.nodes.map Node.tabsOf).flatten

/-- `Tree::focused_leaf`. -/
def Tree.focused_leaf (t : Tree Tab) : Option Nat := t.focused_node

/-- `Tree::set_focused_node` — focus `i` if the node there is a leaf,
otherwise clear focus; never panics. -/
def Tree.set_focused_node (t : Tree Tab) (i : Nat) : Tree Tab :=
  { t with focused_node := ((t.nodes[i]?).filter Node.is_leaf).map (fun _ => i) }

/-- `Tree::set_active_tab` — sets the active tab of the leaf at the index if
there is one (no panic on a miss). -/
def Tree.set_active_tab (t : Tree Tab) (node_index tab_index : Nat) : Tree Tab :=
  match t.nodes[node_index]? with
  | some (.leaf tabs _ c) =>
    { t with nodes := t.nodes.set node_index (.leaf tabs tab_index c) }
  | _ => t

/-- Rust `Vec::resize_with(target, || Node::Empty)`: pad with Empty up to
`target`, or truncate down to it. -/
def resizeTo (ns : List (Node Tab)) (target : Nat) : List (Node Tab) :=
  ns.take target ++ List.replicate (target - ns.length) Node.empty

/-- Rust `iter().rposition(|n| !n.is_empty())`: index of the last non-empty
node. -/
def rposition : List (Node Tab) → Option Nat
  | [] => none
  | n :: rest =>
    match rposition rest with
    | some j => some (j + 1)
    | none => if n.is_empty then none else some 0

/-- Swap the length-`len` ranges starting at `a` and `b`; `none` when an
index is out of bounds (the Rust slice swap would panic). -/
def swapRanges : List (Node Tab) → Nat → Nat → Nat → Option (List (Node Tab))
  | ns, _, _, 0 => some ns
  | ns, a, b, len + 1 =>
    match ns[a]?, ns[b]? with
    | some x, some y => swapRanges ((ns.set a y).set b x) (a + 1) (b + 1) len
    | _, _ => none

/-- The level-by-level block swaps of `Tree::split` relocating the split
target's descendants one level deeper: `for level in (1..levels_to_move).rev()`,
swap `children_at(parent, level)` with `children_at(index[0], level)`.
`ltm` is `levels_to_move`; the guards mirror the panics of
`split_at_mut`/slicing when the ranges are out of bounds. -/
def moveChildren (parent i0 : Nat) : Nat → List (Node Tab) → Option (List (Node Tab))
  | 0, ns => some ns
  | 1, ns => some ns
  | l + 2, ns => do
    let lvl := l + 1
    let oldStart := chStart parent lvl
    let newStart := chStart i0 lvl
    let len := 2 ^ lvl
    if oldStart + len ≤ newStart ∧ newStart + len ≤ ns.length then do
      let ns' ← swapRanges ns oldStart newStart len
      moveChildren parent i0 (l + 1) ns'
    else none

/-- The conditional of step (b) of `Tree::split`: the level-by-level
relocation runs only when the split target was itself a parent node
(`if old.is_parent() { ... }`). -/
def moveChildrenIfParent (isPar : Bool) (par i0 ltm : Nat) (ns : List (Node Tab)) :
    Option (List (Node Tab)) :=
  if isPar then moveChildren par i0 ltm ns else some ns

/-- `Tree::first_leaf` — ordered depth search below `top` for the first
leaf, preferring a child that is itself a leaf, recursing into split
children, never descending into Empty.  The fuel is `nodes.length + 1`,
more than the possible recursion depth (indices strictly increase and must
stay below the length for the search to recurse). -/
def first_leafAux (ns : List (Node Tab)) : Nat → Nat → Option Nat
  | 0, _ => none
  | fuel + 1, top =>
    let l := left top
    let r := right top
    let ln := ns[l]?
    let rn := ns[r]?
    -- mirrors the source's match arm by arm:
    -- (Some(Leaf), _) / (_, Some(Leaf)) / (split, split) / (split, _) /
    -- (_, split) / otherwise None
    if ln.any Node.is_leaf then some l
    else if rn.any Node.is_leaf then some r
    else if ln.any Node.is_parent && rn.any Node.is_parent then
      (first_leafAux ns fuel l) <|> (first_leafAux ns fuel r)
    else if ln.any Node.is_parent then first_leafAux ns fuel l
    else if rn.any Node.is_parent then first_leafAux ns fuel r
    else none

/-- `Tree::first_leaf` (entry point). -/
def Tree.first_leaf (t : Tree Tab) (top : Nat) : Option Nat :=
  first_leafAux t.nodes (t.nodes.length + 1) top

/-- The focus-replacement search of `Tree::remove_leaf`: walk upward from
the removed node, at each step checking whether the sibling is a leaf, else
searching the sibling's subtree with `first_leaf`, else ascending.  The
node index strictly decreases at each step, so fuel `node + 1` suffices. -/
def focusSearchAux (ns : List (Node Tab)) : Nat → Nat → Option Nat
  | 0, _ => none
  | fuel + 1, node =>
    match parent node with
    | none => none
    | some par =>
      let next := if is_left node then right par else left par
      if (ns[next]?).any Node.is_leaf then some next
      else
        match first_leafAux ns (ns.length + 1) next with
        | some i => some i
        | none => focusSearchAux ns fuel par

/-- One ancestor step of `Tree::node_update_collapsed`, iterated up to the
root.  `expand` selects the branch: on expansion the ancestor's collapsed
flag is forced false before its count is recomputed; on collapse the count
is recomputed and the flag is set only when both children are collapsed.
`none` models the panics of `self[...]` indexing.  Ancestor indices
strictly decrease, so fuel `p + 1` suffices. -/
def nucUp (expand : Bool) : Nat → Nat → List (Node Tab) → Option (List (Node Tab))
  | 0, _, _ => none
  | fuel + 1, p, ns => do
    let ln ← ns[left p]?
    let rn ← ns[right p]?
    let cur ← ns[p]?
    let lc := ln.collapsed_leaf_count
    let rc := rn.collapsed_leaf_count
    let newCount := if cur.is_horizontal then max lc rc else lc + rc
    let cur' :=
      if expand then (cur.set_collapsed false).set_collapsed_leaf_count newCount
      else
        let c := cur.set_collapsed_leaf_count newCount
        if ln.is_collapsed && rn.is_collapsed then c.set_collapsed true else c
    let ns' := ns.set p cur'
    match parent p with
    | none => some ns'
    | some q => nucUp expand fuel q ns'

/-- `Tree::node_update_collapsed` — propagate a node's collapsed state to
its ancestors and mirror the root's state onto the tree-level fields (always
on expansion; on collapse only when the root ends up collapsed). -/
def Tree.node_update_collapsed (t : Tree Tab) (node_index : Nat) : Option (Tree Tab) := do
  let n ← t.nodes[node_index]?
  if n.is_collapsed then do
    let ns' ←
      match parent node_index with
      | none => some t.nodes
      | some p => nucUp false (node_index + 1) p t.nodes
    if ((ns'[0]?).getD Node.empty).is_collapsed then do
      let rootN ← ns'[0]?
      some { t with nodes := ns', collapsed := true,
                    collapsed_leaf_count := rootN.collapsed_leaf_count }
    else
      some { t with nodes := ns' }
  else do
    let ns' ←
      match parent node_index with
      | none => some t.nodes
      | some p => nucUp true (node_index + 1) p t.nodes
    let rootN ← ns'[0]?
    some { t with nodes := ns', collapsed := false,
                  collapsed_leaf_count := rootN.collapsed_leaf_count }

/-- `Tree::split` — convert the parent slot into a split node, grow the
vector to the next full level, relocate the old subtree one level deeper
when the target was itself a split, install the old content and the new
node in the two child slots picked by the direction, focus the new node and
re-run collapse propagation from it.  `none` models the panics (fraction
out of `0..=1`, splitting Empty, new content without tabs, out-of-bounds
indexing). -/
def Tree.split (t : Tree Tab) (par : Nat) (dir : SplitDir) (fraction : Rat)
    (newNode : Node Tab) : Option (Tree Tab × Nat × Nat) :=
  -- `Node::split` asserts the fraction range; hoisting the check before the
  -- `self[parent]` indexing does not change the result (both failures panic).
  if 0 ≤ fraction ∧ fraction ≤ 1 then
    match t.nodes[par]? with
    | none => none
    | some old =>
      -- in-place `Node::split`: the slot becomes a Horizontal/Vertical split
      let replacement : Node Tab :=
        if dir.is_left_right then .horizontal fraction false 0
        else .vertical fraction false 0
      let ns0 := t.nodes.set par replacement
      if old.is_leaf || old.is_parent then
        if newNode.tabs_count ≠ 0 then
          -- resize to `(1 << (code_level + 1)) - 1` where the code's level is
          -- the bit length of the last occupied index plus one, i.e.
          -- `level lastIdx + 1`
          let ns1 := resizeTo ns0 (2 ^ (level ((rposition ns0).getD 0) + 2) - 1)
          let (i0, i1) :=
            match dir with
            | .Left | .Above => (right par, left par)
            | .Right | .Below => (left par, right par)
          -- `levels_to_move` is a difference of code levels, which equals
          -- the difference of spec levels
          match moveChildrenIfParent old.is_parent par i0 (level ns1.length - level i0) ns1 with
          | none => none
          | some ns2 =>
            if i0 < ns2.length ∧ i1 < ns2.length then
              match Tree.node_update_collapsed
                  { t with nodes := (ns2.set i0 old).set i1 newNode,
                           focused_node := some i1 } i1 with
              | none => none
              | some t'' => some (t'', i0, i1)
            else none
        else none
      else none
  else none

/-- One level of the repack loop of `Tree::remove_leaf`: zip the
destination range with the source range, stopping everything at the first
source index past the end of the vector; each moved slot drags the focused
index along and leaves Empty behind
(`nodes[dst] = mem::replace(&mut nodes[src], Empty)`). -/
def repackStep : Nat → List (Node Tab) → Option Nat → Nat → Nat →
    List (Node Tab) × Option Nat × Bool
  | 0, ns, foc, _, _ => (ns, foc, false)
  | cnt + 1, ns, foc, dst, src =>
    if ns.length ≤ src then (ns, foc, true)
    else
      let foc' := if foc = some src then some dst else foc
      let v := (ns[src]?).getD Node.empty
      repackStep cnt ((ns.set dst v).set src Node.empty) foc' (dst + 1) (src + 1)

/-- The outer level loop of `Tree::remove_leaf`'s repack: at each `lvl` the
destinations are `children_at(parent, lvl)` and the sources are the
surviving half of `children_at(parent, lvl + 1)` (`children_right` when the
removed node was the left child, `children_left` otherwise), until a source
index falls outside the vector.  The source start grows geometrically, so
fuel `nodes.length + 2` is more than the number of levels ever visited. -/
def repackLevels (leftSide : Bool) (par : Nat) :
    Nat → List (Node Tab) → Option Nat → Nat → List (Node Tab) × Option Nat
  | 0, ns, foc, _ => (ns, foc)
  | fuel + 1, ns, foc, lvl =>
    let dstStart := chStart par lvl
    let srcStart := if leftSide then chRightStart par (lvl + 1) else chLeftStart par (lvl + 1)
    match repackStep (2 ^ lvl) ns foc dstStart srcStart with
    | (ns', foc', true) => (ns', foc')
    | (ns', foc', false) => repackLevels leftSide par fuel ns' foc' (lvl + 1)

/-- The trailing-Empty trim at the end of `Tree::remove_leaf`: repeatedly
drop the last node while it is Empty and its parent slot is not a split
node (genuine unused tail capacity, not a real gap). -/
def trimTrailing : Nat → List (Node Tab) → List (Node Tab)
  | 0, ns => ns
  | fuel + 1, ns =>
    -- `len.checked_sub(1)` fails exactly when the vector is empty;
    -- `parent().is_some_and(|pi| !self[pi].is_parent())` is `Option.any`
    if ns.length = 0 then ns
    else
      let m := ns.length - 1
      let lastN := (ns[m]?).getD Node.empty
      let parentNotParent :=
        (parent m).any fun pi => !((ns[pi]?).getD Node.empty).is_parent
      if lastN.is_empty && parentNotParent then trimTrailing fuel ns.dropLast
      else ns

/-- `Tree::remove_leaf` — asserts the tree is non-empty and the target is a
leaf; removing the root clears the node vector (the focused index is left
untouched by the source); otherwise relocate focus if the removed leaf was
focused, clear the leaf and its parent slot, shift the surviving sibling
subtree up one level, and trim trailing Empty capacity. -/
def Tree.remove_leaf (t : Tree Tab) (node : Nat) : Option (Tree Tab) :=
  if t.nodes.isEmpty then none
  else
    match t.nodes[node]? with
    | none => none
    | some n =>
      if n.is_leaf then
        match parent node with
        | none => some { t with nodes := [] }
        | some par =>
          let foc0 :=
            if t.focused_node = some node then focusSearchAux t.nodes (node + 1) node
            else t.focused_node
          let ns0 := (t.nodes.set par Node.empty).set node Node.empty
          let (ns1, foc1) := repackLevels (is_left node) par (ns0.length + 2) ns0 foc0 0
          let ns2 := trimTrailing ns1.length ns1
          some { t with nodes := ns2, focused_node := foc1 }
      else none

/-- `Tree::push_to_first_leaf`'s scan: append to the first leaf (the new
tab becomes active) or turn the first Empty slot into a fresh leaf; returns
the updated vector and the focused index, or `none` when no such slot
exists. -/
def pushFirstAux (tab : Tab) : List (Node Tab) → Nat → Option (List (Node Tab) × Nat)
  | [], _ => none
  | n :: rest, i =>
    match n with
    | .leaf tabs _ c => some ((Node.leaf (tabs ++ [tab]) tabs.length c) :: rest, i)
    | .empty => some (Node.leaf1 tab :: rest, i)
    | other => (pushFirstAux tab rest (i + 1)).map (fun (ns, j) => (other :: ns, j))

/-- `Tree::push_to_first_leaf` — on a miss the source asserts the vector is
empty (panic otherwise, modelled as `none`) and creates the root leaf. -/
def Tree.push_to_first_leaf (t : Tree Tab) (tab : Tab) : Option (Tree Tab) :=
  match pushFirstAux tab t.nodes 0 with
  | some (ns, i) => some { t with nodes := ns, focused_node := some i }
  | none =>
    if t.nodes.isEmpty then
      some { t with nodes := [Node.leaf_with [tab]], focused_node := some 0 }
    else none

/-- `Tree::push_to_focused_leaf` — push into the focused Empty/Leaf slot,
else fall back to the first leaf; an empty vector gets a fresh focused root
leaf.  `none` models the `self[node]` panic on an out-of-range focus. -/
def Tree.push_to_focused_leaf (t : Tree Tab) (tab : Tab) : Option (Tree Tab) :=
  match t.focused_node with
  | some node =>
    if t.nodes.isEmpty then
      some { t with nodes := [Node.leaf1 tab], focused_node := some 0 }
    else
      match t.nodes[node]? with
      | none => none
      | some .empty =>
        some { t with nodes := t.nodes.set node (Node.leaf1 tab), focused_node := some node }
      | some (.leaf tabs a c) =>
        some { t with nodes := t.nodes.set node ((Node.leaf tabs a c).append_tab tab),
                      focused_node := some node }
      | some _ => t.push_to_first_leaf tab
  | none =>
    if t.nodes.isEmpty then
      some { t with nodes := [Node.leaf1 tab], focused_node := some 0 }
    else t.push_to_first_leaf tab

/-- `Tree::remove_tab` — remove the tab at the (node, tab) pair; when the
node's tab count drops to 0 the leaf itself is removed with `remove_leaf`.
Returns the surviving tree and the removed tab. -/
def Tree.remove_tab (t : Tree Tab) (node_index tab_index : Nat) :
    Option (Tree Tab × Option Tab) :=
  match t.nodes[node_index]? with
  | none => none
  | some n =>
    let (n', tab) := n.remove_tab tab_index
    let t1 : Tree Tab := { t with nodes := t.nodes.set node_index n' }
    if n'.tabs_count = 0 then
      match t1.remove_leaf node_index with
      | none => none
      | some t2 => some (t2, tab)
    else
      some (t1, tab)

/-- One pass of `Tree::balance` over the recorded emptied nodes: for each
node's parent that is still a split, either empty it when both children are
Empty (recording it for the next round) or swap the surviving child's slot
into the parent's position and clear the child's slot.  The source's
`nodes.swap(p, child)` followed by `self[child] = Empty` nets to writing the
child's content at `p` and Empty at the child, which is how it is written
here.  The source iterates a `HashSet` in unspecified order; this model
fixes ascending insertion order. -/
def balancePass : List (Node Tab) → List Nat → List Nat →
    Option (List (Node Tab) × List Nat)
  | ns, [], acc => some (ns, acc)
  | ns, i :: rest, acc =>
    match parent i with
    | none => balancePass ns rest acc
    | some p =>
      match ns[p]? with
      | none => none
      | some cur =>
        if cur.is_parent then
          match ns[left p]?, ns[right p]? with
          | some ln, some rn =>
            if ln.is_empty && rn.is_empty then
              balancePass (ns.set p Node.empty) rest (acc ++ [p])
            else if ln.is_empty then
              balancePass ((ns.set p rn).set (right p) Node.empty) rest acc
            else if rn.is_empty then
              balancePass ((ns.set p ln).set (left p) Node.empty) rest acc
            else
              balancePass ns rest acc
          | _, _ => none
        else
          balancePass ns rest acc

/-- The recursion of `Tree::balance`: run passes until a pass records no
newly emptied parents.  Each round's recorded parents are strictly smaller
indices than the round's inputs, so fuel `nodes.length + 1` is more than
the possible number of rounds. -/
def balanceAux : Nat → List (Node Tab) → List Nat → Option (List (Node Tab))
  | 0, _, _ => none
  | fuel + 1, ns, queue =>
    match balancePass ns queue [] with
    | none => none
    | some (ns', parents) =>
      if parents.isEmpty then some ns'
      else balanceAux fuel ns' parents

/-- `Tree::balance` — only the node vector is touched; focus and the
tree-level collapse fields are left alone. -/
def Tree.balance (t : Tree Tab) (emptied : List Nat) : Option (Tree Tab) :=
  match balanceAux (t.nodes.length + 1) t.nodes emptied with
  | none => none
  | some ns' => some { t with nodes := ns' }

/-- Indices of the Empty slots of a vector, ascending. -/
def emptiedIdxs (ns : List (Node Tab)) : List Nat :=
  (List.range ns.length).filter (fun i => ((ns[i]?).getD Node.empty).is_empty)

/-- `Tree::retain_tabs` — retain each leaf's tabs in place, record every
node that is Empty afterwards (including ones that already were), and
balance. -/
def Tree.retain_tabs (t : Tree Tab) (p : Tab → Bool) : Option (Tree Tab) :=
  let ns := t.nodes.map (Node.retain_tabs p)
  Tree.balance { t with nodes := ns } (emptiedIdxs ns)

/-- `Tree::filter_map_tabs` — build a new tree of the transformed tab type
with the focus and collapse fields copied verbatim, recording the nodes the
transform emptied (Empty now, non-Empty before), then balance. -/
def Tree.filter_map_tabs (t : Tree Tab) (f : Tab → Option NewTab) : Option (Tree NewTab) :=
  let ns := t.nodes.map (Node.filter_map_tabs f)
  let emptied := (List.range t.nodes.length).filter (fun i =>
    ((ns[i]?).getD Node.empty).is_empty && !((t.nodes[i]?).getD Node.empty).is_empty)
  Tree.balance
    { nodes := ns, focused_node := t.focused_node,
      collapsed := t.collapsed, collapsed_leaf_count := t.collapsed_leaf_count }
    emptied

/-- `Tree::map_tabs` — `filter_map_tabs` with a never-filtering transform. -/
def Tree.map_tabs (t : Tree Tab) (f : Tab → NewTab) : Option (Tree NewTab) :=
  t.filter_map_tabs (fun tab => some (f tab))

/-- `Tree::filter_tabs` — `filter_map_tabs` keeping the tabs satisfying the
predicate. -/
def Tree.filter_tabs (t : Tree Tab) (p : Tab → Bool) : Option (Tree Tab) :=
  t.filter_map_tabs (fun tab => if p tab then some tab else none)

/-- Placement state of a floating window (`WindowState`, defined outside
the two shipped source files); its contents are irrelevant to every claim,
so it is a placeholder. -/
structure WindowState where
deriving DecidableEq, Repr

/-- `Surface` from `surface.rs`: no tree, the main tree, or a floating tree
with window placement state. -/
inductive Surface (Tab : Type) where
  | Empty : Surface Tab
  | Main (tree : Tree Tab) : Surface Tab
  | Window (tree : Tree Tab) (state : WindowState) : Surface Tab
deriving DecidableEq, Repr

/-- `Surface::is_empty`. -/
def Surface.is_empty : Surface Tab → Bool
  | .Empty => true
  | _ => false

/-- `Surface::filter_map_tabs` — Empty stays Empty, Main stays Main, and a
Window whose filtered tree has an empty node vector collapses to Empty.
The outer `Option` models a panic inside `Tree::filter_map_tabs`. -/
def Surface.filter_map_tabs (s : Surface Tab) (f : Tab → Option NewTab) :
    Option (Surface NewTab) :=
  match s with
  | .Empty => some .Empty
  | .Main tree => (tree.filter_map_tabs f).map .Main
  | .Window tree st =>
    (tree.filter_map_tabs f).map (fun tree' =>
      if tree'.nodes.isEmpty then .Empty else .Window tree' st)

/-! Definitions supporting the claim statements. -/

/-- The node stored at index `i`, defaulting to Empty past the end (spec
section 4.1: an index past the sequence means "not yet materialized /
implicitly Empty"). -/
def nodeAtD (ns : List (Node Tab)) (i : Nat) : Node Tab :=
  (ns[i]?).getD Node.empty

/-- Scan of the flat sequence for a Split node whose two child slots are
both Empty (the shape check of invariant I1 / claim C1). -/
def hasEmptyChildrenSplit (ns : List (Node Tab)) : Bool :=
  (List.range ns.length).any fun i =>
    (nodeAtD ns i).is_parent && (nodeAtD ns (left i)).is_empty
      && (nodeAtD ns (right i)).is_empty

/-- Whether every strict ancestor of `i` holds a non-Empty node.  Ancestor
indices strictly decrease, so fuel `i + 1` suffices. -/
def ancestorsNonEmpty (ns : List (Node Tab)) : Nat → Nat → Bool
  | 0, _ => true
  | fuel + 1, i =>
    match parent i with
    | none => true
    | some p => !(nodeAtD ns p).is_empty && ancestorsNonEmpty ns fuel p

/-- Every occupied (non-Empty) node's entire ancestor chain up to the root
consists of non-Empty nodes (the second shape check of claim C1). -/
def allOccupiedAncestorsNonEmpty (ns : List (Node Tab)) : Bool :=
  (List.range ns.length).all fun i =>
    (nodeAtD ns i).is_empty || ancestorsNonEmpty ns (i + 1) i

/-- Recursion worker for `recomputeCount`; child indices strictly increase
and recursion happens only below the length, so fuel `ns.length + 1` is
more than any possible recursion depth. -/
def recomputeCountAux (ns : List (Node Tab)) : Nat → Nat → Int
  | 0, _ => 0
  | fuel + 1, i =>
    match nodeAtD ns i with
    | .empty => 0
    | .leaf _ _ c => if c then 1 else 0
    | .horizontal _ _ _ =>
      max (recomputeCountAux ns fuel (2 * i + 1)) (recomputeCountAux ns fuel (2 * i + 2))
    | .vertical _ _ _ =>
      recomputeCountAux ns fuel (2 * i + 1) + recomputeCountAux ns fuel (2 * i + 2)

/-- The from-scratch bottom-up recomputation of the collapsed-leaf-count of
the subtree at `i`, using the aggregation rule of spec section 3 I3: a
Split's count is `max(left, right)` if Horizontal and `left + right` if
Vertical; a collapsed leaf counts 1; Empty (or an absent slot) counts 0. -/
def recomputeCount (ns : List (Node Tab)) (i : Nat) : Int :=
  recomputeCountAux ns (ns.length + 1) i

/-- A node carrying no collapse state: flag clear and count 0. -/
def nodeExpanded (n : Node Tab) : Prop :=
  n.is_collapsed = false ∧ n.collapsed_leaf_count = 0

/-- A tree carrying no collapse state anywhere: every node expanded and the
tree-level flag and count clear. -/
def treeExpanded (t : Tree Tab) : Prop :=
  (∀ n ∈ t.nodes, nodeExpanded n) ∧ t.collapsed = false ∧ t.collapsed_leaf_count = 0

/-- States reachable through the tree's operations when every node handed
to `split` is non-collapsed (as `split_tabs` and the other public tab-level
entry points produce).  Each constructor requires the operation to return
normally (`some`), i.e. its preconditions to hold. -/
inductive ReachE : Tree Tab → Prop where
  | new (tabs : List Tab) : ReachE (Tree.new tabs)
  | base : ReachE Tree.empty
  | split (t : Tree Tab) (p : Nat) (dir : SplitDir) (f : Rat) (newN : Node Tab)
      (t' : Tree Tab) (i0 i1 : Nat) :
      ReachE t → nodeExpanded newN → t.split p dir f newN = some (t', i0, i1) → ReachE t'
  | remove_leaf (t : Tree Tab) (i : Nat) (t' : Tree Tab) :
      ReachE t → t.remove_leaf i = some t' → ReachE t'
  | retain_tabs (t : Tree Tab) (p : Tab → Bool) (t' : Tree Tab) :
      ReachE t → t.retain_tabs p = some t' → ReachE t'
  | remove_tab (t : Tree Tab) (ni ti : Nat) (t' : Tree Tab) (tab : Option Tab) :
      ReachE t → t.remove_tab ni ti = some (t', tab) → ReachE t'
  | set_focused_node (t : Tree Tab) (i : Nat) :
      ReachE t → ReachE (t.set_focused_node i)
  | set_active_tab (t : Tree Tab) (ni ti : Nat) :
      ReachE t → ReachE (t.set_active_tab ni ti)
  | push_to_focused_leaf (t : Tree Tab) (tab : Tab) (t' : Tree Tab) :
      ReachE t → t.push_to_focused_leaf tab = some t' → ReachE t'
  | push_to_first_leaf (t : Tree Tab) (tab : Tab) (t' : Tree Tab) :
      ReachE t → t.push_to_first_leaf tab = some t' → ReachE t'

/-! Theorems for the claims, preceded by shared lemmas. -/

/-- The structural `half` is division by two, as the spec words it. -/
theorem half_eq_div_two : ∀ n, half n = n / 2
  | 0 => rfl
  | 1 => rfl
  | n + 2 => by
    rw [half, half_eq_div_two n]
    omega

/-- The structural `isOdd` is the parity test `n % 2 = 1`, as the spec
words it. -/
theorem isOdd_eq_mod_two : ∀ n, isOdd n = decide (n % 2 = 1)
  | 0 => rfl
  | 1 => rfl
  | n + 2 => by
    rw [isOdd, isOdd_eq_mod_two n]
    exact decide_eq_decide.mpr (by omega)

theorem parent_lt {p q : Nat} (h : NodeIndex.parent p = some q) : q < p := by
  match p with
  | 0 => simp [NodeIndex.parent] at h
  | m + 1 =>
    simp only [NodeIndex.parent, Option.some_inj] at h
    have := half_eq_div_two m
    omega

theorem parent_left (p : Nat) : NodeIndex.parent (left p) = some p := by
  have h2 : 2 * p + 1 = (2 * p) + 1 := rfl
  simp only [NodeIndex.parent, left, h2, Option.some_inj]
  rw [half_eq_div_two]
  omega

theorem parent_right (p : Nat) : NodeIndex.parent (right p) = some p := by
  have h2 : 2 * p + 2 = (2 * p + 1) + 1 := rfl
  simp only [NodeIndex.parent, right, h2, Option.some_inj]
  rw [half_eq_div_two]
  omega

/-- The collapse-propagation walk only writes at the current index and its
ancestors, which all lie strictly below the starting index: every slot
above the walk's start is untouched. -/
theorem nucUp_above (e : Bool) (fuel : Nat) {Tab : Type} :
    ∀ (p : Nat) (ns ns' : List (Node Tab)), nucUp e fuel p ns = some ns' →
      ∀ j, p < j → ns'[j]? = ns[j]? := by
  induction fuel with
  | zero => intro p ns ns' h; simp [nucUp] at h
  | succ fuel ih =>
    intro p ns ns' h j hj
    simp only [nucUp, Option.bind_eq_bind, Option.bind_eq_some] at h
    obtain ⟨ln, _, h⟩ := h
    obtain ⟨rn, _, h⟩ := h
    obtain ⟨cur, _, h⟩ := h
    cases hq : NodeIndex.parent p with
    | none =>
      rw [hq] at h
      simp only [Option.some_inj] at h
      subst h
      rw [List.getElem?_set_ne (by omega)]
    | some q =>
      rw [hq] at h
      rw [ih q _ _ h j (lt_trans (parent_lt hq) hj), List.getElem?_set_ne (by omega)]

/-- `node_update_collapsed` never touches the focused index. -/
theorem node_update_collapsed_focused {Tab : Type} (t : Tree Tab) (i : Nat)
    (t' : Tree Tab) (h : t.node_update_collapsed i = some t') :
    t'.focused_node = t.focused_node := by
  simp only [Tree.node_update_collapsed, Option.bind_eq_bind, Option.bind_eq_some] at h
  obtain ⟨n, hn, h⟩ := h
  cases hq : NodeIndex.parent i with
  | none =>
    rw [hq] at h
    split at h
    · simp only [Option.bind_eq_bind, Option.bind_eq_some, Option.some_inj] at h
      obtain ⟨a, ha, h⟩ := h
      split at h
      · simp only [Option.bind_eq_bind, Option.bind_eq_some, Option.some_inj] at h
        obtain ⟨rootN, _, h⟩ := h
        subst h; rfl
      · simp only [Option.some_inj] at h
        subst h; rfl
    · simp only [Option.bind_eq_bind, Option.bind_eq_some, Option.some_inj] at h
      obtain ⟨a, ha, rootN, hr, h⟩ := h
      subst h; rfl
  | some q =>
    rw [hq] at h
    split at h
    · simp only [Option.bind_eq_bind, Option.bind_eq_some, Option.some_inj] at h
      obtain ⟨ns', hw, h⟩ := h
      split at h
      · simp only [Option.bind_eq_bind, Option.bind_eq_some, Option.some_inj] at h
        obtain ⟨rootN, _, h⟩ := h
        subst h; rfl
      · simp only [Option.some_inj] at h
        subst h; rfl
    · simp only [Option.bind_eq_bind, Option.bind_eq_some, Option.some_inj] at h
      obtain ⟨ns', hw, rootN, hr, h⟩ := h
      subst h; rfl

/-- `node_update_collapsed` starting at `i` only writes at strict ancestors
of `i`: slots above `i`'s parent — in particular `i` itself and its
sibling — are untouched. -/
theorem node_update_collapsed_above {Tab : Type} (t : Tree Tab) (i : Nat)
    (t' : Tree Tab) (h : t.node_update_collapsed i = some t') (j : Nat)
    (hj : ∀ q, NodeIndex.parent i = some q → q < j) :
    t'.nodes[j]? = t.nodes[j]? := by
  simp only [Tree.node_update_collapsed, Option.bind_eq_bind, Option.bind_eq_some] at h
  obtain ⟨n, hn, h⟩ := h
  cases hq : NodeIndex.parent i with
  | none =>
    rw [hq] at h
    split at h
    · simp only [Option.bind_eq_bind, Option.bind_eq_some, Option.some_inj] at h
      obtain ⟨a, ha, h⟩ := h
      split at h
      · simp only [Option.bind_eq_bind, Option.bind_eq_some, Option.some_inj] at h
        obtain ⟨rootN, _, h⟩ := h
        subst h; subst ha; rfl
      · simp only [Option.some_inj] at h
        subst h; subst ha; rfl
    · simp only [Option.bind_eq_bind, Option.bind_eq_some, Option.some_inj] at h
      obtain ⟨a, ha, rootN, hr, h⟩ := h
      subst h; subst ha; rfl
  | some q =>
    rw [hq] at h
    split at h
    · simp only [Option.bind_eq_bind, Option.bind_eq_some, Option.some_inj] at h
      obtain ⟨ns', hw, h⟩ := h
      split at h
      · simp only [Option.bind_eq_bind, Option.bind_eq_some, Option.some_inj] at h
        obtain ⟨rootN, _, h⟩ := h
        subst h
        exact nucUp_above _ _ _ _ _ hw j (hj q hq)
      · simp only [Option.some_inj] at h
        subst h
        exact nucUp_above _ _ _ _ _ hw j (hj q hq)
    · simp only [Option.bind_eq_bind, Option.bind_eq_some, Option.some_inj] at h
      obtain ⟨ns', hw, rootN, hr, h⟩ := h
      subst h
      exact nucUp_above _ _ _ _ _ hw j (hj q hq)

/-- C1: the claimed shape invariant fails on the code.  Build three leaves
with two `split_below` calls (nodes: root Split, leaf at 1, Split at 2 with
leaves at 5 and 6), then `retain_tabs` with a predicate that empties only
the leaf at 1.  The balance pass swaps just the sibling Split's slot into
the root, so the resulting flat sequence has a Split at the root with both
child slots Empty, and the occupied leaves at 5 and 6 sit below an Empty
ancestor — both parts of the claim are violated after a
`split`/`split`/`retain_tabs` sequence whose calls all satisfy their
preconditions. -/
theorem C1_retain_balance_breaks_shape_invariant :
    Option.map (fun t : Tree Nat =>
        (hasEmptyChildrenSplit t.nodes, allOccupiedAncestorsNonEmpty t.nodes))
      (do
        let (t1, _, _) ← (Tree.new [0]).split 0 .Below (mkRat 1 2) (Node.leaf_with [1])
        let (t2, _, _) ← t1.split 2 .Below (mkRat 1 2) (Node.leaf_with [2])
        t2.retain_tabs (fun x => decide (x ≠ 0)))
      = some (true, false) := by
  decide

/-- C2: the claimed focus validity fails on the code.  Focus the root leaf,
then `remove_leaf` on the root: the source clears the node vector but
leaves `focused_node` untouched, so `focused_leaf()` still returns
`Some(0)` while no node at index 0 exists. -/
theorem C2_remove_focused_root_leaves_dangling_focus :
    Option.map (fun t : Tree Nat => (t.focused_leaf, t.nodes[0]?))
      (((Tree.new [5]).set_focused_node 0).remove_leaf 0)
      = some (some 0, none) := by
  decide

/-- C5: the claimed subtree promotion fails on the code.  With leaves at 1,
5 and 6 (sibling of the emptied leaf at 1 is the Split at 2), the balance
pass of `retain_tabs` swaps only the sibling's single slot into the parent
position: the promoted Split lands at the root but its leaves stay at 5 and
6 instead of moving to the root's child slots 1 and 2, which remain Empty —
the surviving child's subtree is not moved up. -/
theorem C5_balance_moves_single_slot_not_subtree :
    (do
      let (t1, _, _) ← (Tree.new [10]).split 0 .Below (mkRat 1 2) (Node.leaf_with [11])
      let (t2, _, _) ← t1.split 2 .Below (mkRat 1 2) (Node.leaf_with [12])
      t2.retain_tabs (fun x => decide (x ≠ 10)))
    = some ({ nodes := [.vertical (mkRat 1 2) false 0, .empty, .empty, .empty, .empty,
                        .leaf [11] 0 false, .leaf [12] 0 false],
              focused_node := some 6, collapsed := false,
              collapsed_leaf_count := 0 } : Tree Nat) := by
  decide

/-- C3: for every successful `split`, when the direction is Left or Above
the new content lands in the parent's left-child slot `2p+1` and the old
content in the right-child slot `2p+2`; for Right or Below the old content
lands at `2p+1` and the new at `2p+2`; the returned pair is the old slot
followed by the new slot, and the new node becomes the focused leaf.
Concretely, `split_below` on a root leaf with tabs t1, t2 and new tabs t3
yields a Vertical split root whose first child keeps t1, t2, whose second
child is a leaf with t3, and the second child is focused. -/
theorem C3_split_slot_convention_and_scenario :
    (∀ (Tab : Type) (t : Tree Tab) (p : Nat) (dir : SplitDir) (f : Rat)
        (newN oldN : Node Tab) (t' : Tree Tab) (i0 i1 : Nat),
      t.split p dir f newN = some (t', i0, i1) →
      t.nodes[p]? = some oldN →
      t'.nodes[i0]? = some oldN ∧ t'.nodes[i1]? = some newN ∧
        t'.focused_node = some i1 ∧
        (match dir with
         | .Left | .Above => i0 = right p ∧ i1 = left p
         | .Right | .Below => i0 = left p ∧ i1 = right p)) ∧
    ((Tree.new ["t1", "t2"]).split 0 .Below (mkRat 1 2) (Node.leaf_with ["t3"])
      = some ({ nodes := [.vertical (mkRat 1 2) false 0, .leaf ["t1", "t2"] 0 false,
                          .leaf ["t3"] 0 false],
                focused_node := some 2, collapsed := false, collapsed_leaf_count := 0 },
              1, 2)) := by
  constructor
  · intro Tab t p dir f newN oldN t' i0 i1 h hp
    simp only [Tree.split] at h
    rw [hp] at h
    cases dir <;>
    · by_cases hf : (0:Rat) ≤ f ∧ f ≤ 1
      case neg => rw [if_neg hf] at h; simp at h
      case pos =>
        rw [if_pos hf] at h
        split at h
        case h_1 heq => simp at heq
        case h_2 old heq =>
          injection heq with heq
          subst heq
          split at h
          case isFalse => simp at h
          case isTrue hleaf =>
            split at h
            case isFalse => simp at h
            case isTrue htabs =>
              split at h
              case h_1 => simp at h
              case h_2 ns2 hmv =>
                split at h
                case isFalse => simp at h
                case isTrue hlen =>
                  split at h
                  case h_1 => simp at h
                  case h_2 t2 hnuc =>
                    injection h with h
                    have ht : t2 = t' := congrArg Prod.fst h
                    have hi0 : _ = i0 := congrArg (fun x => x.2.1) h
                    have hi1 : _ = i1 := congrArg (fun x => x.2.2) h
                    subst ht hi0 hi1
                    have hfoc := node_update_collapsed_focused _ _ _ hnuc
                    have hsL := node_update_collapsed_above _ _ _ hnuc (left p) (by
                      intro q hq
                      first
                      | rw [parent_left] at hq | rw [parent_right] at hq
                      injection hq with hq
                      subst hq
                      simp only [left]
                      omega)
                    have hsR := node_update_collapsed_above _ _ _ hnuc (right p) (by
                      intro q hq
                      first
                      | rw [parent_left] at hq | rw [parent_right] at hq
                      injection hq with hq
                      subst hq
                      simp only [right]
                      omega)
                    refine ⟨?_, ?_, ?_, rfl, rfl⟩
                    · first
                      | rw [hsL] | rw [hsR]
                      rw [List.getElem?_set_ne (by simp only [left, right]; omega)]
                      rw [List.getElem?_set_self (by simpa using hlen.1)]
                    · first
                      | rw [hsL] | rw [hsR]
                      rw [List.getElem?_set_self (by simpa using hlen.2)]
                    · rw [hfoc]
  · decide

/-- Witness for C3: the general slot-convention statement applied to a
concrete `split_below` of a one-leaf tree. -/
theorem C3_split_slot_convention_witness :
    ((Tree.new [0] : Tree Nat).split 0 .Below (mkRat 1 2) (Node.leaf_with [1])
      = some ({ nodes := [.vertical (mkRat 1 2) false 0, .leaf [0] 0 false,
                          .leaf [1] 0 false],
                focused_node := some 2, collapsed := false,
                collapsed_leaf_count := 0 }, 1, 2)) ∧
    ((Tree.new [0] : Tree Nat).nodes[0]? = some (Node.leaf_with [0])) ∧
    (({ nodes := [.vertical (mkRat 1 2) false 0, .leaf [0] 0 false,
                  .leaf [1] 0 false],
        focused_node := some 2, collapsed := false,
        collapsed_leaf_count := 0 } : Tree Nat).nodes[1]? = some (Node.leaf_with [0]) ∧
      ({ nodes := [.vertical (mkRat 1 2) false 0, .leaf [0] 0 false,
                   .leaf [1] 0 false],
         focused_node := some 2, collapsed := false,
         collapsed_leaf_count := 0 } : Tree Nat).nodes[2]? = some (Node.leaf_with [1]) ∧
      ({ nodes := [.vertical (mkRat 1 2) false 0, .leaf [0] 0 false,
                   .leaf [1] 0 false],
         focused_node := some 2, collapsed := false,
         collapsed_leaf_count := 0 } : Tree Nat).focused_node = some 2 ∧
      (1 = left 0 ∧ 2 = right 0)) := by
  refine ⟨by decide, by decide, ?_⟩
  have h := C3_split_slot_convention_and_scenario.1 Nat (Tree.new [0]) 0 .Below
    (mkRat 1 2) (Node.leaf_with [1]) (Node.leaf_with [0])
    ({ nodes := [.vertical (mkRat 1 2) false 0, .leaf [0] 0 false, .leaf [1] 0 false],
       focused_node := some 2, collapsed := false, collapsed_leaf_count := 0 })
    1 2 (by decide) (by decide)
  exact h

/-- C4 counterexample: splitting the root leaf with a collapsed new leaf (a
Leaf node with one tab, a legal `split` argument) reaches a tree whose root
Split has collapsed-leaf-count 1 — matching the from-scratch recomputation —
while the tree-level count stays 0: the collapse branch of
`node_update_collapsed` copies the root's count to the tree only when the
root itself ends up collapsed, so the claimed Tree-level mirror fails. -/
theorem C4_counterexample_tree_level_count_not_mirrored :
    Option.map (fun x : Tree Nat × Nat × Nat =>
        (x.1.collapsed_leaf_count, (nodeAtD x.1.nodes 0).collapsed_leaf_count,
          recomputeCount x.1.nodes 0))
      ((Tree.new [0]).split 0 .Below (mkRat 1 2) (Node.leaf [1] 0 true))
      = some (0, 1, 1) := by
  decide

/-- C6: the documented precondition violations panic rather than return:
`split` with a fraction outside the documented `0..=1` range, `split` on an
Empty parent node, `split` with new content containing no tabs,
`remove_leaf` on an empty tree, and `remove_leaf` on an index that does not
hold a Leaf (including an out-of-range index) all abort — modelled as the
operation returning `none` instead of a tree. -/
theorem C6_precondition_violations_panic :
    (∀ (Tab : Type) (t : Tree Tab) (p : Nat) (dir : SplitDir) (f : Rat)
        (newN : Node Tab), (f < 0 ∨ 1 < f) → t.split p dir f newN = none) ∧
    (∀ (Tab : Type) (t : Tree Tab) (p : Nat) (dir : SplitDir) (f : Rat)
        (newN : Node Tab), t.nodes[p]? = some .empty → t.split p dir f newN = none) ∧
    (∀ (Tab : Type) (t : Tree Tab) (p : Nat) (dir : SplitDir) (f : Rat)
        (newN : Node Tab), newN.tabs_count = 0 → t.split p dir f newN = none) ∧
    (∀ (Tab : Type) (t : Tree Tab) (i : Nat), t.nodes = [] → t.remove_leaf i = none) ∧
    (∀ (Tab : Type) (t : Tree Tab) (i : Nat),
      (∀ n, t.nodes[i]? = some n → n.is_leaf = false) → t.remove_leaf i = none) := by
  refine ⟨?_, ?_, ?_, ?_, ?_⟩
  · intro Tab t p dir f newN hf
    simp only [Tree.split]
    rw [if_neg]
    rintro ⟨c1, c2⟩
    rcases hf with hf | hf
    · exact absurd c1 (not_le.mpr hf)
    · exact absurd c2 (not_le.mpr hf)
  · intro Tab t p dir f newN hp
    simp only [Tree.split]
    by_cases hf : (0:Rat) ≤ f ∧ f ≤ 1
    · rw [if_pos hf, hp]
      rfl
    · rw [if_neg hf]
  · intro Tab t p dir f newN htc
    cases hres : t.split p dir f newN with
    | none => rfl
    | some r =>
      exfalso
      simp only [Tree.split] at hres
      by_cases hf : (0:Rat) ≤ f ∧ f ≤ 1
      · rw [if_pos hf] at hres
        split at hres
        · simp at hres
        · split at hres
          · split at hres
            · exact absurd htc ‹newN.tabs_count ≠ 0›
            · simp at hres
          · simp at hres
      · rw [if_neg hf] at hres; simp at hres
  · intro Tab t i h
    simp only [Tree.remove_leaf]
    rw [if_pos (by simp [h])]
  · intro Tab t i h
    cases hres : t.remove_leaf i with
    | none => rfl
    | some r =>
      exfalso
      simp only [Tree.remove_leaf] at hres
      by_cases he : t.nodes.isEmpty = true
      · rw [if_pos he] at hres; simp at hres
      · rw [if_neg he] at hres
        split at hres
        · simp at hres
        · next n heq =>
          rw [h n heq] at hres
          simp at hres

set_option maxHeartbeats 2000000 in
theorem C8_split_below (Tab : Type) (x y : Tab) (f : Rat) (hf0 : 0 ≤ f) (hf1 : f ≤ 1) :
    (Tree.new [x]).split 0 .Below f (Node.leaf_with [y])
    = some ({ nodes := [.vertical f false 0, .leaf [x] 0 false, .leaf [y] 0 false],
              focused_node := some 2, collapsed := false, collapsed_leaf_count := 0 },
            1, 2) := by
  simp only [Tree.split]
  rw [if_pos ⟨hf0, hf1⟩]
  rfl

set_option maxHeartbeats 2000000 in
theorem C8_split_above (Tab : Type) (x y : Tab) (f : Rat) (hf0 : 0 ≤ f) (hf1 : f ≤ 1) :
    (Tree.new [x]).split 0 .Above f (Node.leaf_with [y])
    = some ({ nodes := [.vertical f false 0, .leaf [y] 0 false, .leaf [x] 0 false],
              focused_node := some 1, collapsed := false, collapsed_leaf_count := 0 },
            2, 1) := by
  simp only [Tree.split]
  rw [if_pos ⟨hf0, hf1⟩]
  rfl

set_option maxHeartbeats 2000000 in
theorem C8_split_right (Tab : Type) (x y : Tab) (f : Rat) (hf0 : 0 ≤ f) (hf1 : f ≤ 1) :
    (Tree.new [x]).split 0 .Right f (Node.leaf_with [y])
    = some ({ nodes := [.horizontal f false 0, .leaf [x] 0 false, .leaf [y] 0 false],
              focused_node := some 2, collapsed := false, collapsed_leaf_count := 0 },
            1, 2) := by
  simp only [Tree.split]
  rw [if_pos ⟨hf0, hf1⟩]
  rfl

set_option maxHeartbeats 2000000 in
theorem C8_split_left (Tab : Type) (x y : Tab) (f : Rat) (hf0 : 0 ≤ f) (hf1 : f ≤ 1) :
    (Tree.new [x]).split 0 .Left f (Node.leaf_with [y])
    = some ({ nodes := [.horizontal f false 0, .leaf [y] 0 false, .leaf [x] 0 false],
              focused_node := some 1, collapsed := false, collapsed_leaf_count := 0 },
            2, 1) := by
  simp only [Tree.split]
  rw [if_pos ⟨hf0, hf1⟩]
  rfl

theorem C8_remove_v2 (Tab : Type) (x y : Tab) (f : Rat) :
    Tree.remove_tab
      { nodes := [.vertical f false 0, .leaf [x] 0 false, .leaf [y] 0 false],
        focused_node := some 2, collapsed := false, collapsed_leaf_count := 0 } 2 0
    = some ({ nodes := [Node.leaf [x] 0 false], focused_node := some 0,
              collapsed := false, collapsed_leaf_count := 0 }, some y) := by
  rfl

theorem C8_remove_v1 (Tab : Type) (x y : Tab) (f : Rat) :
    Tree.remove_tab
      { nodes := [.vertical f false 0, .leaf [y] 0 false, .leaf [x] 0 false],
        focused_node := some 1, collapsed := false, collapsed_leaf_count := 0 } 1 0
    = some ({ nodes := [Node.leaf [x] 0 false], focused_node := some 0,
              collapsed := false, collapsed_leaf_count := 0 }, some y) := by
  rfl

theorem C8_remove_h2 (Tab : Type) (x y : Tab) (f : Rat) :
    Tree.remove_tab
      { nodes := [.horizontal f false 0, .leaf [x] 0 false, .leaf [y] 0 false],
        focused_node := some 2, collapsed := false, collapsed_leaf_count := 0 } 2 0
    = some ({ nodes := [Node.leaf [x] 0 false], focused_node := some 0,
              collapsed := false, collapsed_leaf_count := 0 }, some y) := by
  rfl

theorem C8_remove_h1 (Tab : Type) (x y : Tab) (f : Rat) :
    Tree.remove_tab
      { nodes := [.horizontal f false 0, .leaf [y] 0 false, .leaf [x] 0 false],
        focused_node := some 1, collapsed := false, collapsed_leaf_count := 0 } 1 0
    = some ({ nodes := [Node.leaf [x] 0 false], focused_node := some 0,
              collapsed := false, collapsed_leaf_count := 0 }, some y) := by
  rfl

/-- C8: for every tree built as a root leaf A holding the single tab `x`
split in any direction with any in-range fraction to produce a sibling leaf
B holding the single tab `y`, `remove_tab` addressed at B's only tab
removes the tab (returning it), removes B's now tab-empty leaf via
`remove_leaf`, and the tree collapses back to a single Leaf holding `x`
at the root. -/
theorem C8_remove_last_tab_collapses_to_root_leaf (Tab : Type) (x y : Tab)
    (dir : SplitDir) (f : Rat) (hf0 : 0 ≤ f) (hf1 : f ≤ 1) :
    (match (Tree.new [x]).split 0 dir f (Node.leaf_with [y]) with
     | none => none
     | some (t1, _, i1) => t1.remove_tab i1 0)
    = some ({ nodes := [Node.leaf [x] 0 false], focused_node := some 0,
              collapsed := false, collapsed_leaf_count := 0 }, some y) := by
  cases dir
  · rw [C8_split_left Tab x y f hf0 hf1]
    exact C8_remove_h1 Tab x y f
  · rw [C8_split_right Tab x y f hf0 hf1]
    exact C8_remove_h2 Tab x y f
  · rw [C8_split_above Tab x y f hf0 hf1]
    exact C8_remove_v1 Tab x y f
  · rw [C8_split_below Tab x y f hf0 hf1]
    exact C8_remove_v2 Tab x y f

/-- Witness for C8: the collapse scenario at a concrete input. -/
theorem C8_remove_last_tab_collapses_witness :
    (0 ≤ mkRat 1 2 ∧ mkRat 1 2 ≤ 1) ∧
    (match (Tree.new [7] : Tree Nat).split 0 .Below (mkRat 1 2) (Node.leaf_with [9]) with
     | none => none
     | some (t1, _, i1) => t1.remove_tab i1 0)
    = some ({ nodes := [Node.leaf [7] 0 false], focused_node := some 0,
              collapsed := false, collapsed_leaf_count := 0 }, some 9) := by
  refine ⟨by decide, ?_⟩
  exact C8_remove_last_tab_collapses_to_root_leaf Nat 7 9 .Below (mkRat 1 2)
    (by decide) (by decide)

/-- Witness for C6: each panic condition triggered at a concrete input. -/
theorem C6_precondition_violations_panic_witness :
    ((Tree.new [0] : Tree Nat).split 0 .Below 2 (Node.leaf_with [1]) = none) ∧
    (({ nodes := [Node.empty], focused_node := none, collapsed := false,
        collapsed_leaf_count := 0 } : Tree Nat).split 0 .Below (mkRat 1 2)
        (Node.leaf_with [1]) = none) ∧
    ((Tree.new [0] : Tree Nat).split 0 .Below (mkRat 1 2) (Node.leaf_with []) = none) ∧
    ((Tree.empty : Tree Nat).remove_leaf 0 = none) ∧
    (({ nodes := [Node.horizontal (mkRat 1 2) false 0], focused_node := none,
        collapsed := false, collapsed_leaf_count := 0 } : Tree Nat).remove_leaf 0 = none) := by
  refine ⟨?_, ?_, ?_, ?_, ?_⟩
  · exact C6_precondition_violations_panic.1 Nat (Tree.new [0]) 0 .Below 2
      (Node.leaf_with [1]) (Or.inr (by norm_num))
  · exact C6_precondition_violations_panic.2.1 Nat _ 0 .Below (mkRat 1 2)
      (Node.leaf_with [1]) (by decide)
  · exact C6_precondition_violations_panic.2.2.1 Nat (Tree.new [0]) 0 .Below (mkRat 1 2)
      (Node.leaf_with []) (by decide)
  · exact C6_precondition_violations_panic.2.2.2.1 Nat Tree.empty 0 rfl
  · exact C6_precondition_violations_panic.2.2.2.2 Nat _ 0 (by decide)

theorem tabs_count_of_is_parent {Tab : Type} {n : Node Tab}
    (h : n.is_parent = true) : n.tabs_count = 0 := by
  cases n <;> simp_all [Node.is_parent, Node.tabs_count]

/-- Additive effect of a single store on the total tab count. -/
theorem sum_tabs_set {Tab : Type} :
    ∀ (ns : List (Node Tab)) (i : Nat) (v v0 : Node Tab), ns[i]? = some v0 →
      (((ns.set i v).map Node.tabs_count).sum + v0.tabs_count
        = (ns.map Node.tabs_count).sum + v.tabs_count) := by
  intro ns
  induction ns with
  | nil => intro i v v0 h; simp at h
  | cons nd rest ih =>
    intro i v v0 h
    cases i with
    | zero =>
      simp only [List.getElem?_cons_zero, Option.some_inj] at h
      subst h
      simp [List.set_cons_zero]
      omega
    | succ j =>
      simp only [List.getElem?_cons_succ] at h
      simp only [List.set_cons_succ, List.map_cons, List.sum_cons]
      have := ih j v v0 h
      omega

/-- One balance pass neither changes the vector length nor the total tab
count, and it only ever empties slots holding parent nodes. -/
theorem balancePass_sum_length {Tab : Type} :
    ∀ (q : List Nat) (ns : List (Node Tab)) (acc : List Nat)
      (ns' : List (Node Tab)) (acc' : List Nat),
      balancePass ns q acc = some (ns', acc') →
      (ns'.map Node.tabs_count).sum = (ns.map Node.tabs_count).sum ∧
        ns'.length = ns.length := by
  intro q
  induction q with
  | nil =>
    intro ns acc ns' acc' h
    simp only [balancePass, Option.some_inj, Prod.mk.injEq] at h
    obtain ⟨h1, h2⟩ := h
    subst h1
    exact ⟨rfl, rfl⟩
  | cons i rest ih =>
    intro ns acc ns' acc' h
    simp only [balancePass] at h
    split at h
    · exact ih _ _ _ _ h
    · rename_i p hq
      split at h
      · simp at h
      · rename_i cur hcur
        split at h
        · rename_i hpar
          split at h
          · rename_i ln rn hln hrn
            split at h
            · obtain ⟨hsum, hlen⟩ := ih _ _ _ _ h
              have hs := sum_tabs_set ns p Node.empty cur hcur
              have hc0 := tabs_count_of_is_parent hpar
              have he : (Node.empty : Node Tab).tabs_count = 0 := rfl
              constructor
              · rw [hsum]
                omega
              · rw [hlen, List.length_set]
            · split at h
              · obtain ⟨hsum, hlen⟩ := ih _ _ _ _ h
                have hs1 := sum_tabs_set ns p rn cur hcur
                have hrn' : (ns.set p rn)[right p]? = some rn := by
                  rw [List.getElem?_set_ne (by simp [right]; omega)]
                  exact hrn
                have hs2 := sum_tabs_set (ns.set p rn) (right p) Node.empty rn hrn'
                have hc0 := tabs_count_of_is_parent hpar
                have he : (Node.empty : Node Tab).tabs_count = 0 := rfl
                constructor
                · rw [hsum]
                  omega
                · rw [hlen]
                  simp [List.length_set]
              · split at h
                · obtain ⟨hsum, hlen⟩ := ih _ _ _ _ h
                  have hs1 := sum_tabs_set ns p ln cur hcur
                  have hln' : (ns.set p ln)[left p]? = some ln := by
                    rw [List.getElem?_set_ne (by simp [left]; omega)]
                    exact hln
                  have hs2 := sum_tabs_set (ns.set p ln) (left p) Node.empty ln hln'
                  have hc0 := tabs_count_of_is_parent hpar
                  have he : (Node.empty : Node Tab).tabs_count = 0 := rfl
                  constructor
                  · rw [hsum]
                    omega
                  · rw [hlen]
                    simp [List.length_set]
                · exact ih _ _ _ _ h
          · simp at h
        · exact ih _ _ _ _ h

/-- The balance recursion preserves the total tab count and the length. -/
theorem balanceAux_sum_length {Tab : Type} :
    ∀ (fuel : Nat) (ns : List (Node Tab)) (q : List Nat) (ns' : List (Node Tab)),
      balanceAux fuel ns q = some ns' →
      (ns'.map Node.tabs_count).sum = (ns.map Node.tabs_count).sum ∧
        ns'.length = ns.length := by
  intro fuel
  induction fuel with
  | zero => intro ns q ns' h; simp [balanceAux] at h
  | succ fuel ih =>
    intro ns q ns' h
    simp only [balanceAux] at h
    split at h
    · simp at h
    · rename_i ns0 parents hpass
      obtain ⟨hsum, hlen⟩ := balancePass_sum_length _ _ _ _ _ hpass
      split at h
      · simp only [Option.some_inj] at h
        subst h
        exact ⟨hsum, hlen⟩
      · obtain ⟨hsum2, hlen2⟩ := ih _ _ _ h
        exact ⟨hsum2.trans hsum, hlen2.trans hlen⟩

/-- `Tree::balance` preserves the total tab count, the vector length, and —
by construction, exactly as in the source — the focus and tree-level
collapse fields. -/
theorem balance_sum_length_fields {Tab : Type} (t : Tree Tab) (emptied : List Nat)
    (t' : Tree Tab) (h : t.balance emptied = some t') :
    (t'.nodes.map Node.tabs_count).sum = (t.nodes.map Node.tabs_count).sum ∧
      t'.nodes.length = t.nodes.length ∧
      t'.focused_node = t.focused_node ∧
      t'.collapsed = t.collapsed ∧
      t'.collapsed_leaf_count = t.collapsed_leaf_count := by
  simp only [Tree.balance] at h
  split at h
  · simp at h
  · rename_i ns' haux
    simp only [Option.some_inj] at h
    subst h
    obtain ⟨hsum, hlen⟩ := balanceAux_sum_length _ _ _ _ haux
    exact ⟨hsum, hlen, rfl, rfl, rfl⟩

theorem num_tabs_eq_sum {Tab : Type} (t : Tree Tab) :
    t.num_tabs = (t.nodes.map Node.tabs_count).sum := by
  have hgen : ∀ (ns : List (Node Tab)) (a : Nat),
      ns.foldl (fun acc n => acc + n.tabs_count) a = a + (ns.map Node.tabs_count).sum := by
    intro ns
    induction ns with
    | nil => intro a; simp
    | cons nd rest ih =>
      intro a
      simp only [List.foldl_cons, List.map_cons, List.sum_cons, ih]
      omega
  simpa using hgen t.nodes 0

theorem tabs_count_filter_map {Tab NewTab : Type} (f : Tab → Option NewTab)
    (n : Node Tab) :
    (n.filter_map_tabs f).tabs_count = (n.tabsOf.filterMap f).length := by
  cases n with
  | leaf tabs a c =>
    simp only [Node.filter_map_tabs, Node.tabsOf]
    split
    · rename_i hemp
      rw [List.isEmpty_iff] at hemp
      simp [Node.tabs_count, hemp]
    · simp [Node.tabs_count]
  | empty => rfl
  | horizontal fr c nn => rfl
  | vertical fr c nn => rfl

theorem tabsOf_length {Tab : Type} (n : Node Tab) : n.tabsOf.length = n.tabs_count := by
  cases n <;> rfl

theorem filterMap_guard_eq_filter {α : Type} (P : α → Bool) (l : List α) :
    l.filterMap (fun x => if P x then some x else none) = l.filter P := by
  induction l with
  | nil => rfl
  | cons a l ih =>
    by_cases h : P a <;> simp [List.filterMap_cons, List.filter_cons, h, ih]

theorem sum_filter_lengths {Tab : Type} (P : Tab → Bool) (ns : List (Node Tab)) :
    (ns.map (fun n => (n.tabsOf.filter P).length)).sum
      = ((ns.map Node.tabsOf).flatten.filter P).length := by
  induction ns with
  | nil => rfl
  | cons n rest ih =>
    simp only [List.map_cons, List.sum_cons, List.flatten_cons, List.filter_append,
      List.length_append, ih]

/-- `Tree::filter_map_tabs` turns the total tab count into the sum, over the
old nodes, of the number of surviving tabs — the balance pass afterwards
moves tabs around but never drops any. -/
theorem num_tabs_filter_map_eq {Tab NewTab : Type} (t : Tree Tab) (f : Tab → Option NewTab)
    (t' : Tree NewTab) (h : t.filter_map_tabs f = some t') :
    t'.num_tabs = (t.nodes.map (fun n => (n.tabsOf.filterMap f).length)).sum := by
  simp only [Tree.filter_map_tabs] at h
  obtain ⟨hsum, -, -, -, -⟩ := balance_sum_length_fields _ _ _ h
  rw [num_tabs_eq_sum, hsum]
  simp only [List.map_map]
  have hfun : (Node.tabs_count ∘ Node.filter_map_tabs f)
      = (fun n : Node Tab => (n.tabsOf.filterMap f).length) :=
    funext (fun n => tabs_count_filter_map f n)
  rw [hfun]

/-- `Tree::filter_map_tabs` preserves the length of the node vector: the
per-node rewrite is a `map`, and the balance pass only stores into existing
slots. -/
theorem filter_map_tabs_length {Tab NewTab : Type} (t : Tree Tab) (f : Tab → Option NewTab)
    (t' : Tree NewTab) (h : t.filter_map_tabs f = some t') :
    t'.nodes.length = t.nodes.length := by
  simp only [Tree.filter_map_tabs] at h
  obtain ⟨-, hlen, -, -, -⟩ := balance_sum_length_fields _ _ _ h
  simpa using hlen

/-- C7: `num_tabs` of the tree returned by `map_tabs` with any total
transform equals `num_tabs` of the original tree, and `num_tabs` of the
tree returned by `filter_tabs` with predicate `P` equals the number of tabs
of the original tree satisfying `P`. -/
theorem C7_num_tabs_map_filter :
    (∀ (Tab NewTab : Type) (t : Tree Tab) (g : Tab → NewTab) (t' : Tree NewTab),
        t.map_tabs g = some t' → t'.num_tabs = t.num_tabs) ∧
    (∀ (Tab : Type) (t : Tree Tab) (P : Tab → Bool) (t' : Tree Tab),
        t.filter_tabs P = some t' → t'.num_tabs = (t.tabsList.filter P).length) := by
  constructor
  · intro Tab NewTab t g t' h
    have h2 := num_tabs_filter_map_eq t (fun tab => some (g tab)) t' h
    rw [h2, num_tabs_eq_sum]
    have hfun : ∀ n ∈ t.nodes,
        ((n.tabsOf.filterMap fun tab => some (g tab)).length) = Node.tabs_count n := by
      intro n _
      rw [show (fun tab => some (g tab)) = some ∘ g from rfl, List.filterMap_eq_map,
        List.length_map, tabsOf_length]
    rw [List.map_congr_left hfun]
  · intro Tab t P t' h
    have h2 := num_tabs_filter_map_eq t (fun tab => if P tab then some tab else none) t' h
    rw [h2]
    have hfun : ∀ n ∈ t.nodes,
        ((n.tabsOf.filterMap fun tab => if P tab then some tab else none).length)
          = (n.tabsOf.filter P).length := by
      intro n _
      rw [filterMap_guard_eq_filter P n.tabsOf]
    rw [List.map_congr_left hfun, sum_filter_lengths]
    rfl

theorem C7_num_tabs_map_filter_witness :
    (Tree.new ([1, 2] : List Nat)).map_tabs (fun x => x + 1) = some (Tree.new [2, 3]) ∧
      (Tree.new ([2, 3] : List Nat)).num_tabs = (Tree.new ([1, 2] : List Nat)).num_tabs :=
  ⟨by decide,
   C7_num_tabs_map_filter.1 Nat Nat (Tree.new [1, 2]) (fun x => x + 1)
     (Tree.new [2, 3]) (by decide)⟩

/-- C9: `Tree::filter_map_tabs` and `Tree::retain_tabs` copy the
focused-node index, the collapsed flag and the collapsed-leaf-count
verbatim into the result, and `Tree::balance` never modifies these three
fields. -/
theorem C9_filter_map_retain_balance_frame :
    (∀ (Tab NewTab : Type) (t : Tree Tab) (f : Tab → Option NewTab) (t' : Tree NewTab),
        t.filter_map_tabs f = some t' →
        t'.focused_node = t.focused_node ∧ t'.collapsed = t.collapsed ∧
          t'.collapsed_leaf_count = t.collapsed_leaf_count) ∧
    (∀ (Tab : Type) (t : Tree Tab) (p : Tab → Bool) (t' : Tree Tab),
        t.retain_tabs p = some t' →
        t'.focused_node = t.focused_node ∧ t'.collapsed = t.collapsed ∧
          t'.collapsed_leaf_count = t.collapsed_leaf_count) ∧
    (∀ (Tab : Type) (t : Tree Tab) (emptied : List Nat) (t' : Tree Tab),
        t.balance emptied = some t' →
        t'.focused_node = t.focused_node ∧ t'.collapsed = t.collapsed ∧
          t'.collapsed_leaf_count = t.collapsed_leaf_count) := by
  refine ⟨?_, ?_, ?_⟩
  · intro Tab NewTab t f t' h
    simp only [Tree.filter_map_tabs] at h
    obtain ⟨-, -, h1, h2, h3⟩ := balance_sum_length_fields _ _ _ h
    exact ⟨h1, h2, h3⟩
  · intro Tab t p t' h
    simp only [Tree.retain_tabs] at h
    obtain ⟨-, -, h1, h2, h3⟩ := balance_sum_length_fields _ _ _ h
    exact ⟨h1, h2, h3⟩
  · intro Tab t emptied t' h
    obtain ⟨-, -, h1, h2, h3⟩ := balance_sum_length_fields _ _ _ h
    exact ⟨h1, h2, h3⟩

theorem C9_filter_map_retain_balance_frame_witness :
    (Tree.new ([1] : List Nat)).balance [] = some (Tree.new [1]) ∧
      ((Tree.new ([1] : List Nat)).focused_node = (Tree.new ([1] : List Nat)).focused_node ∧
        (Tree.new ([1] : List Nat)).collapsed = (Tree.new ([1] : List Nat)).collapsed ∧
        (Tree.new ([1] : List Nat)).collapsed_leaf_count
          = (Tree.new ([1] : List Nat)).collapsed_leaf_count) :=
  ⟨by decide,
   C9_filter_map_retain_balance_frame.2.2 Nat (Tree.new [1]) [] (Tree.new [1]) (by decide)⟩

/-- C10: `Surface::filter_map_tabs` maps Main to Main unconditionally
(never to Empty, even when every tab is filtered out), maps a Window to
Empty exactly when the resulting tree's node vector is empty, and —
`Tree::filter_map_tabs` preserving the node-vector length — a Window
collapses to Empty iff its tree's node vector was already empty before the
call. -/
theorem C10_surface_filter_map_main_window :
    (∀ (Tab NewTab : Type) (tr : Tree Tab) (f : Tab → Option NewTab) (s' : Surface NewTab),
        (Surface.Main tr).filter_map_tabs f = some s' →
        ∃ tr', tr.filter_map_tabs f = some tr' ∧ s' = Surface.Main tr') ∧
    (∀ (Tab NewTab : Type) (tr : Tree Tab) (w : WindowState) (f : Tab → Option NewTab)
        (s' : Surface NewTab),
        (Surface.Window tr w).filter_map_tabs f = some s' →
        (s' = Surface.Empty ↔ tr.nodes = [])) ∧
    (∀ (Tab NewTab : Type) (t : Tree Tab) (f : Tab → Option NewTab) (t' : Tree NewTab),
        t.filter_map_tabs f = some t' → t'.nodes.length = t.nodes.length) := by
  refine ⟨?_, ?_, ?_⟩
  · intro Tab NewTab tr f s' h
    simp only [Surface.filter_map_tabs, Option.map_eq_some'] at h
    obtain ⟨tr', htr, hs⟩ := h
    exact ⟨tr', htr, hs.symm⟩
  · intro Tab NewTab tr w f s' h
    simp only [Surface.filter_map_tabs, Option.map_eq_some'] at h
    obtain ⟨tr', htr, hs⟩ := h
    have hlen := filter_map_tabs_length _ _ _ htr
    subst hs
    constructor
    · intro he
      by_cases hc : tr'.nodes.isEmpty
      · have h0 : tr'.nodes = [] := List.isEmpty_iff.mp hc
        have h0' : tr.nodes.length = 0 := by rw [← hlen, h0]; rfl
        exact List.length_eq_zero.mp h0'
      · rw [if_neg hc] at he
        exact absurd he (by simp)
    · intro he
      have h0 : tr'.nodes.length = 0 := by rw [hlen, he]; rfl
      have hc : tr'.nodes.isEmpty = true :=
        List.isEmpty_iff.mpr (List.length_eq_zero.mp h0)
      rw [if_pos hc]
  · intro Tab NewTab t f t' h
    exact filter_map_tabs_length t f t' h

theorem C10_surface_filter_map_witness :
    (Surface.Window (Tree.new ([1] : List Nat)) ⟨⟩).filter_map_tabs (fun x => some x)
        = some (Surface.Window (Tree.new [1]) ⟨⟩) ∧
      ((Surface.Window (Tree.new ([1] : List Nat)) ⟨⟩ : Surface Nat)
          = Surface.Empty ↔ (Tree.new ([1] : List Nat)).nodes = []) :=
  ⟨by decide,
   C10_surface_filter_map_main_window.2.1 Nat Nat (Tree.new [1]) ⟨⟩ (fun x => some x)
     (Surface.Window (Tree.new [1]) ⟨⟩) (by decide)⟩

/-! Preservation of the fully-expanded state through every operation,
supporting the amended claim C4. -/

theorem nodeExpanded_empty {Tab : Type} : nodeExpanded (Node.empty : Node Tab) :=
  ⟨rfl, rfl⟩

theorem mem_of_getElemOpt {α : Type} {l : List α} {i : Nat} {a : α}
    (h : l[i]? = some a) : a ∈ l := by
  rw [List.getElem?_eq_some] at h
  obtain ⟨hlt, rfl⟩ := h
  exact List.getElem_mem hlt

theorem allExp_set {Tab : Type} {ns : List (Node Tab)} {i : Nat} {v : Node Tab}
    (h : ∀ n ∈ ns, nodeExpanded n) (hv : nodeExpanded v) :
    ∀ n ∈ ns.set i v, nodeExpanded n := by
  intro n hn
  rcases List.mem_or_eq_of_mem_set hn with h1 | h1
  · exact h n h1
  · subst h1
    exact hv

theorem allExp_resize {Tab : Type} {ns : List (Node Tab)}
    (h : ∀ n ∈ ns, nodeExpanded n) (k : Nat) :
    ∀ n ∈ resizeTo ns k, nodeExpanded n := by
  intro n hn
  rw [resizeTo, List.mem_append] at hn
  rcases hn with hn | hn
  · exact h n (List.take_subset _ _ hn)
  · rw [List.eq_of_mem_replicate hn]
    exact nodeExpanded_empty

theorem allExp_swapRanges {Tab : Type} :
    ∀ (len a b : Nat) (ns ns' : List (Node Tab)),
      (∀ n ∈ ns, nodeExpanded n) → swapRanges ns a b len = some ns' →
      ∀ n ∈ ns', nodeExpanded n := by
  intro len
  induction len with
  | zero =>
    intro a b ns ns' h hs
    simp only [swapRanges, Option.some_inj] at hs
    subst hs
    exact h
  | succ k ih =>
    intro a b ns ns' h hs
    simp only [swapRanges] at hs
    split at hs
    · rename_i x y hx hy
      exact ih _ _ _ _
        (allExp_set (allExp_set h (h y (mem_of_getElemOpt hy))) (h x (mem_of_getElemOpt hx)))
        hs
    · simp at hs

theorem allExp_moveChildren {Tab : Type} :
    ∀ (ltm par i0 : Nat) (ns ns' : List (Node Tab)),
      (∀ n ∈ ns, nodeExpanded n) → moveChildren par i0 ltm ns = some ns' →
      ∀ n ∈ ns', nodeExpanded n
  | 0, par, i0, ns, ns', h, hs => by
    simp only [moveChildren, Option.some_inj] at hs
    subst hs
    exact h
  | 1, par, i0, ns, ns', h, hs => by
    simp only [moveChildren, Option.some_inj] at hs
    subst hs
    exact h
  | l + 2, par, i0, ns, ns', h, hs => by
    simp only [moveChildren] at hs
    by_cases hcond : chStart par (l + 1) + 2 ^ (l + 1) ≤ chStart i0 (l + 1) ∧
        chStart i0 (l + 1) + 2 ^ (l + 1) ≤ ns.length
    · rw [if_pos hcond] at hs
      simp only [Option.bind_eq_bind, Option.bind_eq_some] at hs
      obtain ⟨ns1, hsw, hs⟩ := hs
      exact allExp_moveChildren (l + 1) par i0 ns1 ns'
        (allExp_swapRanges _ _ _ _ _ h hsw) hs
    · rw [if_neg hcond] at hs
      simp at hs

theorem allExp_moveChildrenIfParent {Tab : Type} (b : Bool) (par i0 ltm : Nat)
    (ns ns' : List (Node Tab)) (h : ∀ n ∈ ns, nodeExpanded n)
    (hs : moveChildrenIfParent b par i0 ltm ns = some ns') :
    ∀ n ∈ ns', nodeExpanded n := by
  rw [moveChildrenIfParent] at hs
  split at hs
  · exact allExp_moveChildren ltm par i0 ns ns' h hs
  · simp only [Option.some_inj] at hs
    subst hs
    exact h

theorem nodeExpanded_set_clc0 {Tab : Type} {n : Node Tab} (h : nodeExpanded n) :
    nodeExpanded (n.set_collapsed_leaf_count 0) := by
  cases n <;>
    simp_all [nodeExpanded, Node.set_collapsed_leaf_count, Node.is_collapsed,
      Node.collapsed_leaf_count]

theorem nodeExpanded_set_collapsed_false {Tab : Type} {n : Node Tab}
    (h : nodeExpanded n) : nodeExpanded (n.set_collapsed false) := by
  cases n <;>
    simp_all [nodeExpanded, Node.set_collapsed, Node.is_collapsed,
      Node.collapsed_leaf_count]

theorem allExp_nucUp {Tab : Type} (e : Bool) :
    ∀ (fuel p : Nat) (ns ns' : List (Node Tab)),
      (∀ n ∈ ns, nodeExpanded n) → nucUp e fuel p ns = some ns' →
      ∀ n ∈ ns', nodeExpanded n := by
  intro fuel
  induction fuel with
  | zero =>
    intro p ns ns' h hs
    simp [nucUp] at hs
  | succ k ih =>
    intro p ns ns' h hs
    simp only [nucUp, Option.bind_eq_bind, Option.bind_eq_some] at hs
    obtain ⟨ln, hln, rn, hrn, cur, hcur, hs⟩ := hs
    have hl := h ln (mem_of_getElemOpt hln)
    have hr := h rn (mem_of_getElemOpt hrn)
    have hc := h cur (mem_of_getElemOpt hcur)
    split at hs
    · simp only [Option.some_inj] at hs
      subst hs
      refine allExp_set h ?_
      simp only [hl.1, hl.2, hr.2, Bool.false_and, Bool.false_eq_true, if_false,
        max_self, add_zero, ite_self]
      cases e
      · simp only [Bool.false_eq_true, if_false]
        exact nodeExpanded_set_clc0 hc
      · simp only [if_true]
        exact nodeExpanded_set_clc0 (nodeExpanded_set_collapsed_false hc)
    · rename_i q hq
      refine ih q _ _ ?_ hs
      refine allExp_set h ?_
      simp only [hl.1, hl.2, hr.2, Bool.false_and, Bool.false_eq_true, if_false,
        max_self, add_zero, ite_self]
      cases e
      · simp only [Bool.false_eq_true, if_false]
        exact nodeExpanded_set_clc0 hc
      · simp only [if_true]
        exact nodeExpanded_set_clc0 (nodeExpanded_set_collapsed_false hc)

theorem treeExpanded_nuc {Tab : Type} (t : Tree Tab) (i : Nat) (t' : Tree Tab)
    (h : ∀ n ∈ t.nodes, nodeExpanded n)
    (hs : t.node_update_collapsed i = some t') : treeExpanded t' := by
  simp only [Tree.node_update_collapsed, Option.bind_eq_bind, Option.bind_eq_some] at hs
  obtain ⟨n, hn, hs⟩ := hs
  have hne := h n (mem_of_getElemOpt hn)
  rw [if_neg (by simp [hne.1])] at hs
  split at hs
  · simp only [Option.bind_eq_bind, Option.bind_eq_some, Option.some_inj] at hs
    obtain ⟨y, hy, rootN, hroot, hs⟩ := hs
    subst hy
    subst hs
    exact ⟨h, rfl, (h rootN (mem_of_getElemOpt hroot)).2⟩
  · rename_i p hp
    simp only [Option.bind_eq_bind, Option.bind_eq_some, Option.some_inj] at hs
    obtain ⟨ns1, hns1, rootN, hroot, hs⟩ := hs
    have hall := allExp_nucUp true _ _ _ _ h hns1
    subst hs
    exact ⟨hall, rfl, (hall rootN (mem_of_getElemOpt hroot)).2⟩

theorem treeExpanded_split {Tab : Type} (t : Tree Tab) (p : Nat) (dir : SplitDir)
    (f : Rat) (newN : Node Tab) (t' : Tree Tab) (i0 i1 : Nat)
    (ht : ∀ n ∈ t.nodes, nodeExpanded n) (hnew : nodeExpanded newN)
    (hs : t.split p dir f newN = some (t', i0, i1)) : treeExpanded t' := by
  have hrepl : nodeExpanded (if dir.is_left_right then (.horizontal f false 0 : Node Tab)
      else .vertical f false 0) := by
    split <;> exact ⟨rfl, rfl⟩
  simp only [Tree.split] at hs
  split at hs
  · split at hs
    · simp at hs
    · rename_i old hold
      split at hs
      · split at hs
        · split at hs
          · simp at hs
          · rename_i ns2 hmv
            split at hs
            · split at hs
              · simp at hs
              · rename_i t2 hnuc
                simp only [Option.some_inj, Prod.mk.injEq] at hs
                obtain ⟨hs, -, -⟩ := hs
                subst hs
                refine treeExpanded_nuc _ _ _ ?_ hnuc
                exact allExp_set
                  (allExp_set
                    (allExp_moveChildrenIfParent _ _ _ _ _ _
                      (allExp_resize (allExp_set ht hrepl) _) hmv)
                    (ht old (mem_of_getElemOpt hold)))
                  hnew
            · simp at hs
        · simp at hs
      · simp at hs
  · simp at hs

theorem allExp_repackStep {Tab : Type} :
    ∀ (cnt : Nat) (ns : List (Node Tab)) (foc : Option Nat) (dst src : Nat),
      (∀ n ∈ ns, nodeExpanded n) →
      ∀ n ∈ (repackStep cnt ns foc dst src).1, nodeExpanded n := by
  intro cnt
  induction cnt with
  | zero =>
    intro ns foc dst src h
    simp only [repackStep]
    exact h
  | succ k ih =>
    intro ns foc dst src h
    simp only [repackStep]
    split
    · exact h
    · have hv : nodeExpanded ((ns[src]?).getD Node.empty) := by
        cases hq : ns[src]? with
        | none => exact nodeExpanded_empty
        | some w => exact h w (mem_of_getElemOpt hq)
      exact ih _ _ _ _ (allExp_set (allExp_set h hv) nodeExpanded_empty)

theorem allExp_repackLevels {Tab : Type} :
    ∀ (fuel : Nat) (ls : Bool) (par : Nat) (ns : List (Node Tab))
      (foc : Option Nat) (lvl : Nat),
      (∀ n ∈ ns, nodeExpanded n) →
      ∀ n ∈ (repackLevels ls par fuel ns foc lvl).1, nodeExpanded n := by
  intro fuel
  induction fuel with
  | zero =>
    intro ls par ns foc lvl h
    simp only [repackLevels]
    exact h
  | succ k ih =>
    intro ls par ns foc lvl h
    simp only [repackLevels]
    split
    · rename_i ns1 foc1 heq
      have h1 := allExp_repackStep (2 ^ lvl) ns foc
        (chStart par lvl)
        (if ls then chRightStart par (lvl + 1) else chLeftStart par (lvl + 1)) h
      rw [heq] at h1
      exact h1
    · rename_i ns1 foc1 heq
      refine ih ls par ns1 foc1 (lvl + 1) ?_
      have h1 := allExp_repackStep (2 ^ lvl) ns foc
        (chStart par lvl)
        (if ls then chRightStart par (lvl + 1) else chLeftStart par (lvl + 1)) h
      rw [heq] at h1
      exact h1

theorem allExp_trimTrailing {Tab : Type} :
    ∀ (fuel : Nat) (ns : List (Node Tab)), (∀ n ∈ ns, nodeExpanded n) →
      ∀ n ∈ trimTrailing fuel ns, nodeExpanded n := by
  intro fuel
  induction fuel with
  | zero =>
    intro ns h
    simp only [trimTrailing]
    exact h
  | succ k ih =>
    intro ns h
    simp only [trimTrailing]
    split
    · exact h
    · split
      · exact ih _ (fun n hn => h n ((List.dropLast_sublist ns).subset hn))
      · exact h

theorem treeExpanded_remove_leaf {Tab : Type} (t : Tree Tab) (i : Nat) (t' : Tree Tab)
    (ht : treeExpanded t) (hs : t.remove_leaf i = some t') : treeExpanded t' := by
  obtain ⟨h, hc, hcc⟩ := ht
  simp only [Tree.remove_leaf] at hs
  split at hs
  · simp at hs
  · split at hs
    · simp at hs
    · rename_i n hn
      split at hs
      · split at hs
        · simp only [Option.some_inj] at hs
          subst hs
          exact ⟨by simp, hc, hcc⟩
        · rename_i par hpar
          simp only [Option.some_inj] at hs
          subst hs
          refine ⟨?_, hc, hcc⟩
          have h0 : ∀ m ∈ ((t.nodes.set par Node.empty).set i Node.empty),
              nodeExpanded m :=
            allExp_set (allExp_set h nodeExpanded_empty) nodeExpanded_empty
          exact allExp_trimTrailing _ _ (allExp_repackLevels _ _ _ _ _ _ h0)
      · simp at hs

theorem allExp_balancePass {Tab : Type} :
    ∀ (q : List Nat) (ns : List (Node Tab)) (acc : List Nat)
      (ns' : List (Node Tab)) (acc' : List Nat),
      (∀ n ∈ ns, nodeExpanded n) → balancePass ns q acc = some (ns', acc') →
      ∀ n ∈ ns', nodeExpanded n := by
  intro q
  induction q with
  | nil =>
    intro ns acc ns' acc' h hs
    simp only [balancePass, Option.some_inj, Prod.mk.injEq] at hs
    obtain ⟨h1, -⟩ := hs
    subst h1
    exact h
  | cons i rest ih =>
    intro ns acc ns' acc' h hs
    simp only [balancePass] at hs
    split at hs
    · exact ih _ _ _ _ h hs
    · rename_i p hq
      split at hs
      · simp at hs
      · rename_i cur hcur
        split at hs
        · rename_i hpar
          split at hs
          · rename_i ln rn hln hrn
            split at hs
            · exact ih _ _ _ _ (allExp_set h nodeExpanded_empty) hs
            · split at hs
              · exact ih _ _ _ _
                  (allExp_set (allExp_set h (h rn (mem_of_getElemOpt hrn)))
                    nodeExpanded_empty) hs
              · split at hs
                · exact ih _ _ _ _
                    (allExp_set (allExp_set h (h ln (mem_of_getElemOpt hln)))
                      nodeExpanded_empty) hs
                · exact ih _ _ _ _ h hs
          · simp at hs
        · exact ih _ _ _ _ h hs

theorem allExp_balanceAux {Tab : Type} :
    ∀ (fuel : Nat) (ns : List (Node Tab)) (q : List Nat) (ns' : List (Node Tab)),
      (∀ n ∈ ns, nodeExpanded n) → balanceAux fuel ns q = some ns' →
      ∀ n ∈ ns', nodeExpanded n := by
  intro fuel
  induction fuel with
  | zero =>
    intro ns q ns' h hs
    simp [balanceAux] at hs
  | succ k ih =>
    intro ns q ns' h hs
    simp only [balanceAux] at hs
    split at hs
    · simp at hs
    · rename_i ns0 parents hpass
      have h0 := allExp_balancePass _ _ _ _ _ h hpass
      split at hs
      · simp only [Option.some_inj] at hs
        subst hs
        exact h0
      · exact ih _ _ _ h0 hs

theorem treeExpanded_balance {Tab : Type} (t : Tree Tab) (emptied : List Nat)
    (t' : Tree Tab) (ht : treeExpanded t) (hs : t.balance emptied = some t') :
    treeExpanded t' := by
  obtain ⟨h, hc, hcc⟩ := ht
  simp only [Tree.balance] at hs
  split at hs
  · simp at hs
  · rename_i ns' haux
    simp only [Option.some_inj] at hs
    subst hs
    exact ⟨allExp_balanceAux _ _ _ _ h haux, hc, hcc⟩

theorem nodeExpanded_retain {Tab : Type} {n : Node Tab} (p : Tab → Bool)
    (h : nodeExpanded n) : nodeExpanded (n.retain_tabs p) := by
  cases n with
  | leaf tabs a c =>
    simp only [Node.retain_tabs]
    split
    · exact nodeExpanded_empty
    · exact h
  | empty => exact h
  | horizontal fr c k => exact h
  | vertical fr c k => exact h

theorem treeExpanded_retain {Tab : Type} (t : Tree Tab) (p : Tab → Bool)
    (t' : Tree Tab) (ht : treeExpanded t) (hs : t.retain_tabs p = some t') :
    treeExpanded t' := by
  obtain ⟨h, hc, hcc⟩ := ht
  simp only [Tree.retain_tabs] at hs
  refine treeExpanded_balance _ _ _ ?_ hs
  refine ⟨?_, hc, hcc⟩
  intro n hn
  rw [List.mem_map] at hn
  obtain ⟨m, hm, rfl⟩ := hn
  exact nodeExpanded_retain p (h m hm)

theorem nodeExpanded_remove_tab {Tab : Type} {n : Node Tab} (i : Nat)
    (h : nodeExpanded n) : nodeExpanded ((n.remove_tab i).1) := by
  cases n with
  | leaf tabs a c =>
    have hc : c = false := h.1
    subst hc
    simp only [Node.remove_tab]
    split <;> exact ⟨rfl, rfl⟩
  | empty => exact h
  | horizontal fr c k => exact h
  | vertical fr c k => exact h

theorem treeExpanded_remove_tab {Tab : Type} (t : Tree Tab) (ni ti : Nat)
    (t' : Tree Tab) (tab : Option Tab) (ht : treeExpanded t)
    (hs : t.remove_tab ni ti = some (t', tab)) : treeExpanded t' := by
  obtain ⟨h, hc, hcc⟩ := ht
  simp only [Tree.remove_tab] at hs
  split at hs
  · simp at hs
  · rename_i n hn
    have hn1 : nodeExpanded ((n.remove_tab ti).1) :=
      nodeExpanded_remove_tab ti (h n (mem_of_getElemOpt hn))
    split at hs
    · split at hs
      · simp at hs
      · rename_i t2 hrl
        simp only [Option.some_inj, Prod.mk.injEq] at hs
        obtain ⟨hs, -⟩ := hs
        subst hs
        refine treeExpanded_remove_leaf _ _ _ ?_ hrl
        exact ⟨allExp_set h hn1, hc, hcc⟩
    · simp only [Option.some_inj, Prod.mk.injEq] at hs
      obtain ⟨hs, -⟩ := hs
      subst hs
      exact ⟨allExp_set h hn1, hc, hcc⟩

theorem treeExpanded_set_focused {Tab : Type} (t : Tree Tab) (i : Nat)
    (ht : treeExpanded t) : treeExpanded (t.set_focused_node i) := by
  obtain ⟨h, hc, hcc⟩ := ht
  exact ⟨h, hc, hcc⟩

theorem treeExpanded_set_active {Tab : Type} (t : Tree Tab) (ni ti : Nat)
    (ht : treeExpanded t) : treeExpanded (t.set_active_tab ni ti) := by
  obtain ⟨h, hc, hcc⟩ := ht
  rw [Tree.set_active_tab]
  split
  · rename_i tabs a c hn
    refine ⟨allExp_set h ?_, hc, hcc⟩
    have hcf : c = false := (h _ (mem_of_getElemOpt hn)).1
    subst hcf
    exact ⟨rfl, rfl⟩
  · exact ⟨h, hc, hcc⟩

theorem allExp_pushFirstAux {Tab : Type} (tab : Tab) :
    ∀ (ns : List (Node Tab)) (i : Nat) (ns' : List (Node Tab)) (j : Nat),
      (∀ n ∈ ns, nodeExpanded n) → pushFirstAux tab ns i = some (ns', j) →
      ∀ n ∈ ns', nodeExpanded n := by
  intro ns
  induction ns with
  | nil =>
    intro i ns' j h hs
    simp [pushFirstAux] at hs
  | cons n rest ih =>
    intro i ns' j h hs
    have hhead := h n (List.mem_cons_self n rest)
    have hrest : ∀ m ∈ rest, nodeExpanded m := fun m hm => h m (List.mem_cons_of_mem n hm)
    simp only [pushFirstAux] at hs
    split at hs
    · rename_i tabs a c
      simp only [Option.some_inj, Prod.mk.injEq] at hs
      obtain ⟨hs, -⟩ := hs
      subst hs
      intro m hm
      rcases List.mem_cons.mp hm with hm | hm
      · subst hm
        have hcf : c = false := hhead.1
        subst hcf
        exact ⟨rfl, rfl⟩
      · exact hrest m hm
    · simp only [Option.some_inj, Prod.mk.injEq] at hs
      obtain ⟨hs, -⟩ := hs
      subst hs
      intro m hm
      rcases List.mem_cons.mp hm with hm | hm
      · subst hm
        exact ⟨rfl, rfl⟩
      · exact hrest m hm
    · simp only [Option.map_eq_some'] at hs
      obtain ⟨⟨ns1, j1⟩, hrec, heq⟩ := hs
      simp only [Prod.mk.injEq] at heq
      obtain ⟨heq, -⟩ := heq
      subst heq
      intro m hm
      rcases List.mem_cons.mp hm with hm | hm
      · subst hm
        exact hhead
      · exact ih (i + 1) ns1 j1 hrest hrec m hm

theorem treeExpanded_push_first {Tab : Type} (t : Tree Tab) (tab : Tab)
    (t' : Tree Tab) (ht : treeExpanded t) (hs : t.push_to_first_leaf tab = some t') :
    treeExpanded t' := by
  obtain ⟨h, hc, hcc⟩ := ht
  simp only [Tree.push_to_first_leaf] at hs
  split at hs
  · rename_i ns1 j1 heq
    simp only [Option.some_inj] at hs
    subst hs
    exact ⟨allExp_pushFirstAux tab t.nodes 0 ns1 j1 h heq, hc, hcc⟩
  · split at hs
    · simp only [Option.some_inj] at hs
      subst hs
      refine ⟨?_, hc, hcc⟩
      intro m hm
      simp only [List.mem_singleton] at hm
      subst hm
      exact ⟨rfl, rfl⟩
    · simp at hs

theorem nodeExpanded_leaf1 {Tab : Type} (tab : Tab) :
    nodeExpanded (Node.leaf1 tab : Node Tab) := ⟨rfl, rfl⟩

theorem treeExpanded_push_focused {Tab : Type} (t : Tree Tab) (tab : Tab)
    (t' : Tree Tab) (ht : treeExpanded t) (hs : t.push_to_focused_leaf tab = some t') :
    treeExpanded t' := by
  obtain ⟨h, hc, hcc⟩ := ht
  simp only [Tree.push_to_focused_leaf] at hs
  split at hs
  · rename_i node hfoc
    split at hs
    · simp only [Option.some_inj] at hs
      subst hs
      refine ⟨?_, hc, hcc⟩
      intro m hm
      simp only [List.mem_singleton] at hm
      subst hm
      exact nodeExpanded_leaf1 tab
    · split at hs
      · simp at hs
      · simp only [Option.some_inj] at hs
        subst hs
        exact ⟨allExp_set h (nodeExpanded_leaf1 tab), hc, hcc⟩
      · rename_i tabs a c hn
        simp only [Option.some_inj] at hs
        subst hs
        refine ⟨allExp_set h ?_, hc, hcc⟩
        have hcf : c = false := (h _ (mem_of_getElemOpt hn)).1
        subst hcf
        exact ⟨rfl, rfl⟩
      · exact treeExpanded_push_first _ _ _ ⟨h, hc, hcc⟩ hs
  · split at hs
    · simp only [Option.some_inj] at hs
      subst hs
      refine ⟨?_, hc, hcc⟩
      intro m hm
      simp only [List.mem_singleton] at hm
      subst hm
      exact nodeExpanded_leaf1 tab
    · exact treeExpanded_push_first _ _ _ ⟨h, hc, hcc⟩ hs

/-- Every state reachable through the operations — with every node handed to
`split` non-collapsed — is fully expanded: every node's collapse flag is
clear and every count is 0, including the tree-level mirror fields. -/
theorem reachE_treeExpanded {Tab : Type} {t : Tree Tab} (h : ReachE t) :
    treeExpanded t := by
  induction h with
  | new tabs =>
    refine ⟨?_, rfl, rfl⟩
    intro n hn
    simp only [Tree.new, List.mem_singleton] at hn
    subst hn
    exact ⟨rfl, rfl⟩
  | base =>
    refine ⟨?_, rfl, rfl⟩
    intro n hn
    simp [Tree.empty] at hn
  | split t p dir f newN t' i0 i1 hr hnew hs ih =>
    exact treeExpanded_split t p dir f newN t' i0 i1 ih.1 hnew hs
  | remove_leaf t i t' hr hs ih => exact treeExpanded_remove_leaf t i t' ih hs
  | retain_tabs t p t' hr hs ih => exact treeExpanded_retain t p t' ih hs
  | remove_tab t ni ti t' tab hr hs ih => exact treeExpanded_remove_tab t ni ti t' tab ih hs
  | set_focused_node t i hr ih => exact treeExpanded_set_focused t i ih
  | set_active_tab t ni ti hr ih => exact treeExpanded_set_active t ni ti ih
  | push_to_focused_leaf t tab t' hr hs ih => exact treeExpanded_push_focused t tab t' ih hs
  | push_to_first_leaf t tab t' hr hs ih => exact treeExpanded_push_first t tab t' ih hs

theorem recomputeCountAux_zero {Tab : Type} {ns : List (Node Tab)}
    (h : ∀ n ∈ ns, nodeExpanded n) :
    ∀ (fuel i : Nat), recomputeCountAux ns fuel i = 0 := by
  intro fuel
  induction fuel with
  | zero => intro i; rfl
  | succ k ih =>
    intro i
    simp only [recomputeCountAux]
    split
    · rfl
    · rename_i tabs a c heq
      have hmem : Node.leaf tabs a c ∈ ns := by
        rw [nodeAtD] at heq
        cases hq : ns[i]? with
        | none => rw [hq] at heq; simp [Node.empty] at heq
        | some w =>
          rw [hq] at heq
          simp only [Option.getD_some] at heq
          subst heq
          exact mem_of_getElemOpt hq
      have hcf : c = false := (h _ hmem).1
      subst hcf
      rfl
    · rw [ih, ih]
      simp
    · rw [ih, ih]
      simp

/-- C4 (amended): for every tree reachable through the tree's operations
with every node handed to `split` non-collapsed (as the public tab-level
entry points produce), the root's collapsed-leaf-count equals the value of
the from-scratch bottom-up recomputation with the aggregation rule (max for
Horizontal, sum for Vertical, 1 per collapsed leaf), and the tree-level
collapsed flag and leaf-count equal the root's. -/
theorem C4_collapse_count_amended {Tab : Type} (t : Tree Tab) (h : ReachE t) :
    (nodeAtD t.nodes 0).collapsed_leaf_count = recomputeCount t.nodes 0 ∧
      t.collapsed = (nodeAtD t.nodes 0).is_collapsed ∧
      t.collapsed_leaf_count = (nodeAtD t.nodes 0).collapsed_leaf_count := by
  obtain ⟨hall, hc, hcc⟩ := reachE_treeExpanded h
  have hroot : nodeExpanded (nodeAtD t.nodes 0) := by
    rw [nodeAtD]
    cases hq : t.nodes[0]? with
    | none => exact nodeExpanded_empty
    | some w => exact hall w (mem_of_getElemOpt hq)
  refine ⟨?_, ?_, ?_⟩
  · rw [hroot.2, recomputeCount, recomputeCountAux_zero hall]
  · rw [hc, hroot.1]
  · rw [hcc, hroot.2]

theorem C4_collapse_count_amended_witness :
    (nodeAtD (Tree.new ([1] : List Nat)).nodes 0).collapsed_leaf_count
        = recomputeCount (Tree.new ([1] : List Nat)).nodes 0 ∧
      (Tree.new ([1] : List Nat)).collapsed
        = (nodeAtD (Tree.new ([1] : List Nat)).nodes 0).is_collapsed ∧
      (Tree.new ([1] : List Nat)).collapsed_leaf_count
        = (nodeAtD (Tree.new ([1] : List Nat)).nodes 0).collapsed_leaf_count :=
  C4_collapse_count_amended (Tree.new [1]) (ReachE.new [1])

end EguiDock
